import Mathlib

/-!
Shallow embedding of the IQN-ILS acceleration utilities found in
`include/exadg/fluid_structure_interaction/driver.h` of ExaDG:
the dense square `Matrix` class, `compute_QR_decomposition`
(modified Gram-Schmidt with drop-threshold deflation), the two
back-substitution routines, and `inv_jacobian_times_residual`.

Machine doubles are idealized as `ℝ` for the QR routine (whose
branch condition involves the euclidean norm, hence `Real.sqrt`)
and as an abstract `Field` for the routines that only add, multiply
and divide.  A failing `AssertThrow`, as well as an out-of-range
`std::vector` subscript, is modelled by `Option`: a `none` result
means the C++ code raises (resp. has no defined result).
-/

namespace ExaDG
namespace FSI

/-- The `ExaDG::FSI::Matrix<Number>` class: an `M × M` matrix backed by a
flat row-major `std::vector` of length `M * M` (entry `(i,j)` lives at
`i * M + j`).  The constructor resizes the store and zero-initializes it
(`init`); the length invariant established by the constructor is carried
as a field. -/
structure Matrix (α : Type) where
  M : ℕ
  data : List α
  hlen : data.length = M * M

/-- The constructor `Matrix(size)`: `data.resize(M * M)` followed by
`init()`, which sets every entry to `Number(0.0)`. -/
def Matrix.make (α : Type) [Zero α] (size : ℕ) : Matrix α :=
  ⟨size, List.replicate (size * size) 0, by simp⟩

/-- Method `get(i, j)`: `AssertThrow(i < M && j < M)` then return
`data[i * M + j]`.  The throw is modelled by `none`. -/
def Matrix.get {α : Type} (A : Matrix α) (i j : ℕ) : Option α :=
  if i < A.M ∧ j < A.M then A.data[i * A.M + j]? else none

instance {α : Type} [DecidableEq α] : DecidableEq (Matrix α) := fun A B =>
  decidable_of_iff (A.M = B.M ∧ A.data = B.data) (by
    cases A; cases B; simp [Matrix.mk.injEq])

/-- Method `set(value, i, j)`: `AssertThrow(i < M && j < M)` then
`data[i * M + j] = value`.  The throw is modelled by `none`. -/
def Matrix.set {α : Type} (A : Matrix α) (value : α) (i j : ℕ) :
    Option (Matrix α) :=
  if i < A.M ∧ j < A.M then
    some ⟨A.M, A.data.set (i * A.M + j) value, by
      rw [List.length_set]; exact A.hlen⟩
  else none

/-- Total read of an entry (defaulting to `0` out of range); used to state
mathematical properties of in-range entries. -/
def Matrix.entry {α : Type} [Zero α] (A : Matrix α) (i j : ℕ) : α :=
  A.data.getD (i * A.M + j) 0

lemma flat_index_lt {M i j : ℕ} (hi : i < M) (hj : j < M) :
    i * M + j < M * M := by
  calc i * M + j < i * M + M := Nat.add_lt_add_left hj _
  _ = (i + 1) * M := by ring
  _ ≤ M * M := Nat.mul_le_mul_right M hi

lemma flat_index_inj {M i j i' j' : ℕ} (hi : i < M) (hj : j < M)
    (hi' : i' < M) (hj' : j' < M) (h : i * M + j = i' * M + j') :
    i = i' ∧ j = j' := by
  have key : ∀ a b a' b' : ℕ, b < M → b' < M → a < a' →
      a * M + b ≠ a' * M + b' := by
    intro a b a' b' hb hb' haa' hcon
    have h1 : a * M + b < (a + 1) * M := by
      calc a * M + b < a * M + M := Nat.add_lt_add_left hb _
      _ = (a + 1) * M := by ring
    have h2 : (a + 1) * M ≤ a' * M := Nat.mul_le_mul_right M haa'
    omega
  rcases lt_trichotomy i i' with hlt | heq | hgt
  · exact absurd h (key i j i' j' hj hj' hlt)
  · refine ⟨heq, ?_⟩
    subst heq
    omega
  · exact absurd h.symm (key i' j' i j hj' hj hgt)

lemma Matrix.get_in_range {α : Type} [Zero α] (A : Matrix α) {i j : ℕ}
    (hi : i < A.M) (hj : j < A.M) : A.get i j = some (A.entry i j) := by
  unfold Matrix.get Matrix.entry
  rw [if_pos ⟨hi, hj⟩]
  have hlt : i * A.M + j < A.data.length := by
    rw [A.hlen]; exact flat_index_lt hi hj
  rw [List.getD_eq_getElem _ _ hlt, List.getElem?_eq_getElem hlt]

lemma Matrix.set_in_range {α : Type} (A : Matrix α) (v : α) {i j : ℕ}
    (hi : i < A.M) (hj : j < A.M) :
    A.set v i j = some ⟨A.M, A.data.set (i * A.M + j) v, by
      rw [List.length_set]; exact A.hlen⟩ := by
  unfold Matrix.set
  rw [if_pos ⟨hi, hj⟩]

lemma Matrix.set_M {α : Type} {A A' : Matrix α} {v : α} {i j : ℕ}
    (h : A.set v i j = some A') : A'.M = A.M := by
  unfold Matrix.set at h
  by_cases hij : i < A.M ∧ j < A.M
  · rw [if_pos hij] at h
    cases h
    rfl
  · rw [if_neg hij] at h
    cases h

lemma Matrix.set_bounds {α : Type} {A A' : Matrix α} {v : α} {i j : ℕ}
    (h : A.set v i j = some A') : i < A.M ∧ j < A.M := by
  unfold Matrix.set at h
  by_cases hij : i < A.M ∧ j < A.M
  · exact hij
  · rw [if_neg hij] at h
    cases h

lemma Matrix.get_set_same {α : Type} {A A' : Matrix α} {v : α} {i j : ℕ}
    (h : A.set v i j = some A') : A'.get i j = some v := by
  obtain ⟨hi, hj⟩ := A.set_bounds h
  rw [A.set_in_range v hi hj] at h
  cases h
  unfold Matrix.get
  rw [if_pos ⟨hi, hj⟩]
  have hlt : i * A.M + j < A.data.length := by
    rw [A.hlen]; exact flat_index_lt hi hj
  simp only
  exact List.getElem?_set_eq_of_lt v (by simpa using hlt)

lemma Matrix.get_set_ne {α : Type} {A A' : Matrix α} {v : α} {i j : ℕ}
    (h : A.set v i j = some A') (i' j' : ℕ) (hne : ¬(i' = i ∧ j' = j)) :
    A'.get i' j' = A.get i' j' := by
  obtain ⟨hi, hj⟩ := A.set_bounds h
  rw [A.set_in_range v hi hj] at h
  cases h
  unfold Matrix.get
  simp only
  by_cases hij' : i' < A.M ∧ j' < A.M
  · rw [if_pos hij', if_pos hij']
    have hidx : i * A.M + j ≠ i' * A.M + j' := by
      intro hcon
      obtain ⟨h1, h2⟩ := flat_index_inj hi hj hij'.1 hij'.2 hcon
      exact hne ⟨h1.symm, h2.symm⟩
    rw [List.getElem?_set_ne hidx]
  · rw [if_neg hij', if_neg hij']

/-- C8: for every square `Matrix`, `get` and `set` fail exactly on
out-of-range indices (`i ≥ M` or `j ≥ M`); in particular every in-range
access succeeds; and a freshly constructed matrix returns `0` from every
in-range `get`.  (That `get` mutates nothing is inherent in the purely
functional embedding: `get` returns no new matrix.) -/
theorem matrix_bounds_and_zero_init :
    (∀ (A : Matrix ℚ) (i j : ℕ), A.get i j = none ↔ (A.M ≤ i ∨ A.M ≤ j)) ∧
    (∀ (A : Matrix ℚ) (v : ℚ) (i j : ℕ),
      A.set v i j = none ↔ (A.M ≤ i ∨ A.M ≤ j)) ∧
    (∀ (M i j : ℕ),
      (Matrix.make ℚ M).get i j = if i < M ∧ j < M then some 0 else none) := by
  refine ⟨?_, ?_, ?_⟩
  · intro A i j
    constructor
    · intro h
      by_contra hcon
      push_neg at hcon
      rw [A.get_in_range (by omega) (by omega)] at h
      cases h
    · intro h
      unfold Matrix.get
      rw [if_neg (by omega)]
  · intro A v i j
    constructor
    · intro h
      by_contra hcon
      push_neg at hcon
      rw [A.set_in_range v (by omega) (by omega)] at h
      cases h
    · intro h
      unfold Matrix.set
      rw [if_neg (by omega)]
  · intro M i j
    by_cases hij : i < M ∧ j < M
    · rw [if_pos hij]
      have h := (Matrix.make ℚ M).get_in_range (i := i) (j := j) hij.1 hij.2
      rw [h]
      unfold Matrix.entry Matrix.make
      simp only
      rw [List.getD_eq_getElem _ _ (by simp; exact flat_index_lt hij.1 hij.2)]
      simp
    · rw [if_neg hij]
      unfold Matrix.get Matrix.make
      rw [if_neg hij]

/-- C10: `set` on an in-range index pair `(i,j)` succeeds, a subsequent
`get (i,j)` returns exactly the stored value, and every other in-range
entry is unchanged — `set` mutates exactly one cell. -/
theorem matrix_set_frame (A A' : Matrix ℚ) (v : ℚ) (i j : ℕ)
    (h : A.set v i j = some A') :
    A'.get i j = some v ∧
    ∀ i' j', i' < A.M → j' < A.M → ¬(i' = i ∧ j' = j) →
      A'.get i' j' = A.get i' j' := by
  refine ⟨Matrix.get_set_same h, ?_⟩
  intro i' j' _ _ hne
  exact Matrix.get_set_ne h i' j' hne

/-- C10 witness: in the concrete 2×2 rational matrix, writing `7` at
`(0,1)` is read back at `(0,1)` and leaves `(1,0)` untouched. -/
theorem matrix_set_frame_witness :
    (Matrix.make ℚ 2).set 7 0 1 =
      some ⟨2, [0, 7, 0, 0], by decide⟩ ∧
    (Matrix.mk 2 [0, 7, 0, 0] (by decide) : Matrix ℚ).get 0 1 = some 7 ∧
    (Matrix.mk 2 [0, 7, 0, 0] (by decide) : Matrix ℚ).get 1 0 =
      (Matrix.make ℚ 2).get 1 0 := by
  have h : (Matrix.make ℚ 2).set 7 0 1 =
      some ⟨2, [0, 7, 0, 0], by decide⟩ := by decide
  refine ⟨h, (matrix_set_frame _ _ 7 0 1 h).1, ?_⟩
  exact (matrix_set_frame _ _ 7 0 1 h).2 1 0 (by decide) (by decide) (by decide)

/-- The `VectorType` interface of the driver (deal.II distributed vectors),
idealized as `d`-dimensional coordinate vectors over a field. -/
abbrev Vec (α : Type) (d : ℕ) := Fin d → α

/-- Vector product `u * v`: the (globally reduced) inner product. -/
def vdot {α : Type} [Field α] {d : ℕ} (u v : Vec α d) : α :=
  ∑ k, u k * v k

/-- Method `x.add(a, v)`: `x += a * v`, componentwise. -/
def vaxpy {α : Type} [Field α] {d : ℕ} (x : Vec α d) (a : α) (v : Vec α d) :
    Vec α d :=
  fun k => x k + a * v k

/-- Method `dst.equ(c, v)` (`dst = c * v`), also used for `v *= c`. -/
def vsmul {α : Type} [Field α] {d : ℕ} (c : α) (v : Vec α d) : Vec α d :=
  fun k => c * v k

/-- Assignment `v = 0.0`: the zero vector. -/
def vzero {α : Type} [Field α] {d : ℕ} : Vec α d :=
  fun _ => 0

/-- Inner loop of `backward_substitution`:
`for(j = i+1; j < n; ++j) value -= matrix.get(i, j) * dst[j];`.
`tail` holds the already computed entries `[dst[i+1], …, dst[n-1]]`, so
`dst[j]` is `tail[j - (i+1)]`; `fuel` counts the remaining iterations
(`n - j` at entry). -/
def bsInner {α : Type} [Field α] (matrix : Matrix α) (tail : List α)
    (i : ℕ) : ℕ → ℕ → α → Option α
  | _, 0, value => some value
  | j, fuel+1, value =>
    (matrix.get i j).bind fun mij =>
      (tail[j - (i+1)]?).bind fun dj =>
        bsInner matrix tail i (j+1) fuel (value - mij * dj)

/-- Outer loop of `backward_substitution`, `for(i = n-1; i >= 0; --i)`.
After `k` iterations the rows `i = n-1` down to `i = n-k` have been
processed; iteration `k+1` handles row `i = n-(k+1)`, reading `rhs[i]`,
running the inner loop (`n - (i+1) = k` iterations), and dividing by the
diagonal entry; the new value is consed onto the front of the result. -/
def bsLoop {α : Type} [Field α] (matrix : Matrix α) (n : ℕ)
    (rhs : List α) : ℕ → Option (List α)
  | 0 => some []
  | k+1 =>
    (bsLoop matrix n rhs k).bind fun tail =>
      (rhs[n - (k+1)]?).bind fun ri =>
        (bsInner matrix tail (n - (k+1)) (n - (k+1) + 1) k ri).bind fun value =>
          (matrix.get (n - (k+1)) (n - (k+1))).map fun mii =>
            value / mii :: tail

/-- Function `backward_substitution(matrix, dst, rhs)` with `n = dst.size()`.
The initial contents of `dst` are never read (row `i` only reads entries
`dst[j]`, `j > i`, already written), so `dst` enters the model only
through its size `n`; the returned list is the final contents of `dst`.
`none` models a failing `AssertThrow` inside `Matrix::get` or an
out-of-range read of `rhs`. -/
def backward_substitution {α : Type} [Field α] (matrix : Matrix α)
    (n : ℕ) (rhs : List α) : Option (List α) :=
  bsLoop matrix n rhs n

/-- Inner loop of `backward_substitution_multiple_rhs`:
`value.add(-matrix.get(i, j), dst[j])`. -/
def bsInnerV {α : Type} [Field α] {d : ℕ} (matrix : Matrix α)
    (tail : List (Vec α d)) (i : ℕ) : ℕ → ℕ → Vec α d → Option (Vec α d)
  | _, 0, value => some value
  | j, fuel+1, value =>
    (matrix.get i j).bind fun mij =>
      (tail[j - (i+1)]?).bind fun dj =>
        bsInnerV matrix tail i (j+1) fuel (vaxpy value (-mij) dj)

/-- Outer loop of `backward_substitution_multiple_rhs`; the final
assignment is `dst[i].equ(1.0 / matrix.get(i, i), value)`. -/
def bsLoopV {α : Type} [Field α] {d : ℕ} (matrix : Matrix α) (n : ℕ)
    (rhs : List (Vec α d)) : ℕ → Option (List (Vec α d))
  | 0 => some []
  | k+1 =>
    (bsLoopV matrix n rhs k).bind fun tail =>
      (rhs[n - (k+1)]?).bind fun ri =>
        (bsInnerV matrix tail (n - (k+1)) (n - (k+1) + 1) k ri).bind fun value =>
          (matrix.get (n - (k+1)) (n - (k+1))).map fun mii =>
            vsmul (1 / mii) value :: tail

/-- Function `backward_substitution_multiple_rhs(matrix, dst, rhs)` with
`n = dst.size()`, represented like `backward_substitution`. -/
def backward_substitution_multiple_rhs {α : Type} [Field α] {d : ℕ}
    (matrix : Matrix α) (n : ℕ) (rhs : List (Vec α d)) :
    Option (List (Vec α d)) :=
  bsLoopV matrix n rhs n

lemma bsInner_spec {α : Type} [Field α] (matrix : Matrix α) (tail : List α)
    (i : ℕ) (hi : i < matrix.M) :
    ∀ (fuel j : ℕ) (value : α), j + fuel ≤ matrix.M →
      (∀ t, t < fuel → j + t - (i+1) < tail.length) →
      bsInner matrix tail i j fuel value =
        some (value - ∑ t ∈ Finset.range fuel,
          matrix.entry i (j + t) * tail.getD (j + t - (i+1)) 0) := by
  intro fuel
  induction fuel with
  | zero =>
    intro j value _ _
    simp [bsInner]
  | succ f ih =>
    intro j value hjf hcov
    have hj : j < matrix.M := by omega
    have hlen : j - (i+1) < tail.length := by
      have := hcov 0 (by omega)
      simpa using this
    rw [bsInner, matrix.get_in_range hi hj, List.getElem?_eq_getElem hlen]
    simp only [Option.some_bind]
    rw [ih (j+1) _ (by omega) (fun t ht => by
      have := hcov (t+1) (by omega)
      omega)]
    congr 1
    rw [Finset.sum_range_succ']
    have hterm : ∀ t, matrix.entry i (j + 1 + t) * tail.getD (j + 1 + t - (i+1)) 0 =
        matrix.entry i (j + (t+1)) * tail.getD (j + (t+1) - (i+1)) 0 := by
      intro t
      have h1 : j + 1 + t = j + (t + 1) := by omega
      rw [h1]
    rw [Finset.sum_congr rfl (fun t _ => hterm t)]
    have hgd : tail.getD (j - (i+1)) 0 = tail[j - (i+1)] :=
      List.getD_eq_getElem tail 0 hlen
    rw [← hgd]
    simp only [Nat.add_zero]
    abel

lemma bsLoop_spec {α : Type} [Field α] (matrix : Matrix α) (n : ℕ)
    (rhs : List α) (hM : n ≤ matrix.M) (hrhs : n ≤ rhs.length) :
    ∀ k, k ≤ n → ∃ tail, bsLoop matrix n rhs k = some tail ∧
      tail.length = k ∧
      ∀ m, m < k → tail.getD m 0 =
        (rhs.getD (n - k + m) 0 -
          ∑ j ∈ Finset.Ico (n - k + m + 1) n,
            matrix.entry (n - k + m) j * tail.getD (j - (n - k)) 0) /
          matrix.entry (n - k + m) (n - k + m) := by
  intro k
  induction k with
  | zero =>
    intro _
    exact ⟨[], by simp [bsLoop], rfl, fun m hm => absurd hm (by omega)⟩
  | succ k ih =>
    intro hk1
    obtain ⟨tail, htail, hlen, hval⟩ := ih (by omega)
    set i := n - (k+1) with hidef
    have hin : i + 1 + k = n := by omega
    have hiM : i < matrix.M := by omega
    have hrlen : i < rhs.length := by omega
    rw [bsLoop, htail]
    simp only [Option.some_bind]
    rw [List.getElem?_eq_getElem hrlen]
    simp only [Option.some_bind]
    rw [bsInner_spec matrix tail i hiM k (i+1) _ (by omega)
      (fun t ht => by omega)]
    simp only [Option.some_bind]
    rw [matrix.get_in_range hiM hiM]
    simp only [Option.map_some']
    refine ⟨_, rfl, by simp [hlen], ?_⟩
    intro m hm
    have hni : n - (k+1) = i := rfl
    match m with
    | 0 =>
      simp only [List.getD_cons_zero, Nat.add_zero]
      congr 1
      congr 1
      · exact (List.getD_eq_getElem rhs 0 hrlen).symm
      · rw [Finset.sum_Ico_eq_sum_range]
        have hcount : n - (i + 1) = k := by omega
        rw [hcount]
        refine Finset.sum_congr rfl ?_
        intro t ht
        simp only [Finset.mem_range] at ht
        have h1 : i + 1 + t - i = t + 1 := by omega
        have h2 : i + 1 + t - (i + 1) = t := by omega
        rw [h1, h2]
        simp only [List.getD_cons_succ]
    | Nat.succ m' =>
      simp only [List.getD_cons_succ]
      have hm' : m' < k := by omega
      rw [hval m' hm']
      have hrow : n - k + m' = i + (m' + 1) := by omega
      rw [hrow]
      congr 1
      congr 1
      refine Finset.sum_congr rfl ?_
      intro j hj
      simp only [Finset.mem_Ico] at hj
      have h1 : j - i = (j - (n - k)) + 1 := by omega
      rw [h1]
      simp only [List.getD_cons_succ]

/-- C3: on an `n × n` upper-triangular matrix with non-zero diagonal and a
right-hand side of length `n`, `backward_substitution` succeeds, and the
result satisfies `dst[i] = (rhs[i] - Σ_{j>i} R[i][j]·dst[j]) / R[i][i]`
for every `i < n`; consequently, in the exact field arithmetic of the
model, `R · dst = rhs`. -/
theorem backward_substitution_exact {α : Type} [Field α] (matrix : Matrix α)
    (n : ℕ) (rhs : List α) (hM : matrix.M = n) (hrhs : rhs.length = n)
    (htri : ∀ i, i < n → ∀ j, j < i → matrix.entry i j = 0)
    (hdiag : ∀ i, i < n → matrix.entry i i ≠ 0) :
    ∃ dst, backward_substitution matrix n rhs = some dst ∧ dst.length = n ∧
      (∀ i, i < n → dst.getD i 0 =
        (rhs.getD i 0 - ∑ j ∈ Finset.Ico (i+1) n,
          matrix.entry i j * dst.getD j 0) / matrix.entry i i) ∧
      (∀ i, i < n → ∑ j ∈ Finset.range n,
        matrix.entry i j * dst.getD j 0 = rhs.getD i 0) := by
  obtain ⟨dst, hdst, hlen, hval⟩ :=
    bsLoop_spec matrix n rhs (le_of_eq hM.symm) (le_of_eq hrhs.symm) n le_rfl
  simp only [Nat.sub_self, Nat.zero_add, Nat.sub_zero] at hval
  refine ⟨dst, hdst, hlen, hval, ?_⟩
  intro i hi
  have hsplit : ∑ j ∈ Finset.range n, matrix.entry i j * dst.getD j 0 =
      (∑ j ∈ Finset.Ico 0 (i+1), matrix.entry i j * dst.getD j 0) +
      ∑ j ∈ Finset.Ico (i+1) n, matrix.entry i j * dst.getD j 0 := by
    rw [Finset.range_eq_Ico]
    exact (Finset.sum_Ico_consecutive _ (by omega) (by omega)).symm
  rw [hsplit, Finset.sum_Ico_succ_top (Nat.zero_le i)]
  have hlow : ∑ j ∈ Finset.Ico 0 i, matrix.entry i j * dst.getD j 0 = 0 := by
    refine Finset.sum_eq_zero ?_
    intro j hj
    simp only [Finset.mem_Ico] at hj
    rw [htri i hi j hj.2, zero_mul]
  rw [hlow, hval i hi, zero_add, mul_comm,
    div_mul_cancel₀ _ (hdiag i hi)]
  ring

/-- C3 witness: the concrete system `[[2,3],[0,4]] · dst = [8,4]` is solved
(the run succeeds; `backward_substitution_exact` is applied at this
input). -/
theorem backward_substitution_exact_witness :
    (backward_substitution (Matrix.mk 2 [2, 3, 0, 4] rfl) 2
      [(8:ℚ), 4]).isSome = true := by
  obtain ⟨dst, hdst, -, -, -⟩ :=
    backward_substitution_exact (Matrix.mk 2 [(2:ℚ), 3, 0, 4] rfl) 2 [8, 4]
      rfl rfl (by decide) (by decide)
  rw [hdst]
  rfl

lemma bsLoop_none_mono {α : Type} [Field α] (matrix : Matrix α) (n : ℕ)
    (rhs : List α) (k : ℕ) (h : bsLoop matrix n rhs k = none) :
    ∀ k', k ≤ k' → bsLoop matrix n rhs k' = none := by
  intro k'
  induction k' with
  | zero =>
    intro hk
    have : k = 0 := by omega
    rw [← this]
    exact h
  | succ k'' ih =>
    intro hk
    by_cases hkk : k = k'' + 1
    · rw [← hkk]; exact h
    · have := ih (by omega)
      rw [bsLoop, this]
      rfl

lemma bsLoop_one_none {α : Type} [Field α] (matrix : Matrix α) (n : ℕ)
    (rhs : List α) (h : matrix.M < n ∨ rhs.length < n) :
    bsLoop matrix n rhs 1 = none := by
  have hn : 1 ≤ n := by omega
  rw [bsLoop]
  simp only [bsLoop, Option.some_bind]
  rcases Nat.lt_or_ge (n - 1) rhs.length with hr | hr
  · rw [List.getElem?_eq_getElem hr]
    simp only [Option.some_bind]
    have hM : matrix.M < n := by
      rcases h with hM | hlen
      · exact hM
      · omega
    simp only [bsInner, Option.some_bind]
    have : matrix.get (n - 1) (n - 1) = none := by
      unfold Matrix.get
      rw [if_neg (by omega)]
    rw [this]
    rfl
  · rw [List.getElem?_eq_none hr]
    rfl

/-- C6 counterexample: a right-hand side longer than `dst` (sizes 2 vs 1)
raises no error — `backward_substitution` returns a result, with the
extra `rhs` entry silently ignored; likewise for the multiple-rhs
variant below. -/
theorem backward_substitution_length_mismatch_no_error :
    (backward_substitution (Matrix.mk 1 [1] rfl) 1 [(2:ℚ), 5]).isSome
      = true ∧ (1 : ℕ) ≠ List.length [(2:ℚ), 5] := by
  refine ⟨?_, by decide⟩
  decide

lemma bsInnerV_some {α : Type} [Field α] {d : ℕ} (matrix : Matrix α)
    (tail : List (Vec α d)) (i : ℕ) (hi : i < matrix.M) :
    ∀ (fuel j : ℕ) (value : Vec α d), j + fuel ≤ matrix.M →
      (∀ t, t < fuel → j + t - (i+1) < tail.length) →
      ∃ w, bsInnerV matrix tail i j fuel value = some w := by
  intro fuel
  induction fuel with
  | zero =>
    intro j value _ _
    exact ⟨value, by simp [bsInnerV]⟩
  | succ f ih =>
    intro j value hjf hcov
    have hj : j < matrix.M := by omega
    have hlen : j - (i+1) < tail.length := by
      have := hcov 0 (by omega)
      simpa using this
    rw [bsInnerV, matrix.get_in_range hi hj, List.getElem?_eq_getElem hlen]
    simp only [Option.some_bind]
    exact ih (j+1) _ (by omega) (fun t ht => by
      have := hcov (t+1) (by omega)
      omega)

lemma bsLoopV_some {α : Type} [Field α] {d : ℕ} (matrix : Matrix α) (n : ℕ)
    (rhs : List (Vec α d)) (hM : n ≤ matrix.M) (hrhs : n ≤ rhs.length) :
    ∀ k, k ≤ n →
      ∃ tail, bsLoopV matrix n rhs k = some tail ∧ tail.length = k := by
  intro k
  induction k with
  | zero =>
    intro _
    exact ⟨[], by simp [bsLoopV], rfl⟩
  | succ k ih =>
    intro hk
    obtain ⟨tail, htail, hlen⟩ := ih (by omega)
    have hiM : n - (k+1) < matrix.M := by omega
    have hrlen : n - (k+1) < rhs.length := by omega
    rw [bsLoopV, htail]
    simp only [Option.some_bind]
    rw [List.getElem?_eq_getElem hrlen]
    simp only [Option.some_bind]
    obtain ⟨w, hw⟩ := bsInnerV_some matrix tail (n - (k+1)) hiM k
      (n - (k+1) + 1) (rhs[n - (k+1)]) (by omega) (fun t ht => by omega)
    rw [hw]
    simp only [Option.some_bind]
    rw [matrix.get_in_range hiM hiM]
    exact ⟨_, rfl, by simp [hlen]⟩

lemma bsLoopV_none_mono {α : Type} [Field α] {d : ℕ} (matrix : Matrix α)
    (n : ℕ) (rhs : List (Vec α d)) (k : ℕ)
    (h : bsLoopV matrix n rhs k = none) :
    ∀ k', k ≤ k' → bsLoopV matrix n rhs k' = none := by
  intro k'
  induction k' with
  | zero =>
    intro hk
    have : k = 0 := by omega
    rw [← this]
    exact h
  | succ k'' ih =>
    intro hk
    by_cases hkk : k = k'' + 1
    · rw [← hkk]; exact h
    · have := ih (by omega)
      rw [bsLoopV, this]
      rfl

lemma bsLoopV_one_none {α : Type} [Field α] {d : ℕ} (matrix : Matrix α)
    (n : ℕ) (rhs : List (Vec α d)) (h : matrix.M < n ∨ rhs.length < n) :
    bsLoopV matrix n rhs 1 = none := by
  have hn : 1 ≤ n := by omega
  rw [bsLoopV]
  simp only [bsLoopV, Option.some_bind]
  rcases Nat.lt_or_ge (n - 1) rhs.length with hr | hr
  · rw [List.getElem?_eq_getElem hr]
    simp only [Option.some_bind]
    have hM : matrix.M < n := by
      rcases h with hM | hlen
      · exact hM
      · omega
    simp only [bsInnerV, Option.some_bind]
    have : matrix.get (n - 1) (n - 1) = none := by
      unfold Matrix.get
      rw [if_neg (by omega)]
    rw [this]
    rfl
  · rw [List.getElem?_eq_none hr]
    rfl

/-- C6 (amended): for both back-substitution variants an error is raised
iff `dst.size() > M` (a row index then fails the bounds assertion) or
`rhs.size() < dst.size()` (a right-hand-side entry is read out of range);
a right-hand side *longer* than `dst` raises no error — its extra entries
are silently ignored (`n` is taken from `dst` alone). -/
theorem backward_substitution_error_iff :
    (∀ (matrix : Matrix ℚ) (n : ℕ) (rhs : List ℚ),
      backward_substitution matrix n rhs = none ↔
        (matrix.M < n ∨ rhs.length < n)) ∧
    (∀ (d : ℕ) (matrix : Matrix ℚ) (n : ℕ) (rhs : List (Vec ℚ d)),
      backward_substitution_multiple_rhs matrix n rhs = none ↔
        (matrix.M < n ∨ rhs.length < n)) := by
  constructor
  · intro matrix n rhs
    constructor
    · intro h
      by_contra hcon
      push_neg at hcon
      obtain ⟨dst, hdst, -, -⟩ :=
        bsLoop_spec matrix n rhs (by omega) (by omega) n le_rfl
      unfold backward_substitution at h
      rw [h] at hdst
      cases hdst
    · intro h
      exact bsLoop_none_mono matrix n rhs 1
        (bsLoop_one_none matrix n rhs h) n (by omega)
  · intro d matrix n rhs
    constructor
    · intro h
      by_contra hcon
      push_neg at hcon
      obtain ⟨dst, hdst, -⟩ :=
        bsLoopV_some matrix n rhs (by omega) (by omega) n le_rfl
      unfold backward_substitution_multiple_rhs at h
      rw [h] at hdst
      cases hdst
    · intro h
      exact bsLoopV_none_mono matrix n rhs 1
        (bsLoopV_one_none matrix n rhs h) n (by omega)

lemma bsInnerV_component {α : Type} [Field α] {d : ℕ} (matrix : Matrix α)
    (tail : List (Vec α d)) (i : ℕ) (c : Fin d) :
    ∀ (fuel j : ℕ) (value : Vec α d),
      bsInner matrix (tail.map (fun v => v c)) i j fuel (value c) =
        (bsInnerV matrix tail i j fuel value).map (fun w => w c) := by
  intro fuel
  induction fuel with
  | zero =>
    intro j value
    simp [bsInner, bsInnerV]
  | succ f ih =>
    intro j value
    rw [bsInner, bsInnerV]
    cases hm : matrix.get i j with
    | none => rfl
    | some mij =>
      simp only [Option.some_bind]
      rw [List.getElem?_map]
      cases ht : tail[j - (i+1)]? with
      | none => rfl
      | some dj =>
        simp only [Option.map_some', Option.some_bind]
        have harg : value c - mij * dj c = (vaxpy value (-mij) dj) c := by
          simp only [vaxpy]
          ring
        rw [harg]
        exact ih (j+1) (vaxpy value (-mij) dj)

lemma bsLoopV_component {α : Type} [Field α] {d : ℕ} (matrix : Matrix α)
    (n : ℕ) (rhs : List (Vec α d)) (c : Fin d) :
    ∀ k, bsLoop matrix n (rhs.map (fun v => v c)) k =
      (bsLoopV matrix n rhs k).map (List.map (fun v => v c)) := by
  intro k
  induction k with
  | zero => simp [bsLoop, bsLoopV]
  | succ k ih =>
    rw [bsLoop, bsLoopV, ih]
    cases hT : bsLoopV matrix n rhs k with
    | none => rfl
    | some tail =>
      simp only [Option.map_some', Option.some_bind]
      rw [List.getElem?_map]
      cases hr : rhs[n - (k+1)]? with
      | none => rfl
      | some ri =>
        simp only [Option.map_some', Option.some_bind]
        rw [bsInnerV_component matrix tail (n - (k+1)) c k (n - (k+1) + 1) ri]
        cases hv : bsInnerV matrix tail (n - (k+1)) (n - (k+1) + 1) k ri with
        | none => rfl
        | some value =>
          simp only [Option.map_some', Option.some_bind]
          cases hg : matrix.get (n - (k+1)) (n - (k+1)) with
          | none => rfl
          | some mii =>
            simp only [Option.map_some', Option.map_map]
            have hh : value c / mii = vsmul (1/mii) value c := by
              simp only [vsmul]
              rw [one_div, div_eq_mul_inv, mul_comm]
            rw [hh]
            simp [List.map_cons]

/-- C7: the two back-substitution variants compute the same recurrence —
under the claim's hypotheses the vector variant succeeds, and for every
component `c` the scalar variant applied to the `c`-th components of the
right-hand side returns exactly the `c`-th components of the vector
variant's result. -/
theorem backward_substitution_variants_agree {α : Type} [Field α] {d : ℕ}
    (matrix : Matrix α) (n : ℕ) (rhs : List (Vec α d))
    (hM : matrix.M = n) (hrhs : rhs.length = n)
    (htri : ∀ i, i < n → ∀ j, j < i → matrix.entry i j = 0)
    (hdiag : ∀ i, i < n → matrix.entry i i ≠ 0) :
    ∃ dst, backward_substitution_multiple_rhs matrix n rhs = some dst ∧
      ∀ c : Fin d, backward_substitution matrix n
        (rhs.map (fun v => v c)) = some (dst.map (fun v => v c)) := by
  obtain ⟨dst, hdst, -⟩ := bsLoopV_some matrix n rhs (by omega) (by omega) n le_rfl
  refine ⟨dst, hdst, ?_⟩
  intro c
  unfold backward_substitution
  rw [bsLoopV_component matrix n rhs c n]
  rw [hdst]
  rfl

/-- C7 witness: the 1×1 system with matrix `[2]` and vector right-hand
side `[(6)]` (the two-variant agreement theorem applied at this input). -/
theorem backward_substitution_variants_agree_witness :
    (backward_substitution_multiple_rhs (Matrix.mk 1 [2] rfl) 1
      [(fun _ => (6:ℚ) : Vec ℚ 1)]).isSome = true := by
  obtain ⟨dst, hdst, -⟩ :=
    backward_substitution_variants_agree (Matrix.mk 1 [(2:ℚ)] rfl) 1
      [(fun _ => (6:ℚ) : Vec ℚ 1)] rfl rfl (by decide) (by decide)
  rw [hdst]
  rfl

/-- Loop `for(i = 0; i < k; ++i) Z_times_a[i] = (*Z)[i] * a;` — the projection
scalars of the current accumulator `a` onto the `Z` vectors of one history
entry, all computed from the same `a` before `b` and `a` are updated. -/
def projLoop {α : Type} [Field α] {d : ℕ} (Z : List (Vec α d))
    (a : Vec α d) : List α :=
  Z.map (fun z => vdot z a)

/-- Loop `for(i = 0; i < k; ++i) b.add(Z_times_a[i], (*D)[i]);` with `fuel`
iterations done so far; out-of-range reads of `*D` are `none`. -/
def addLoop {α : Type} [Field α] {d : ℕ} (p : List α)
    (vs : List (Vec α d)) : ℕ → Vec α d → Option (Vec α d)
  | 0, x => some x
  | i+1, x =>
    (addLoop p vs i x).bind fun x' =>
      (p[i]?).bind fun pi =>
        (vs[i]?).map fun vi => vaxpy x' pi vi

/-- Loop `for(i = 0; i < k; ++i) a.add(-Z_times_a[i], (*R)[i]);`. -/
def subLoop {α : Type} [Field α] {d : ℕ} (p : List α)
    (vs : List (Vec α d)) : ℕ → Vec α d → Option (Vec α d)
  | 0, x => some x
  | i+1, x =>
    (subLoop p vs i x).bind fun x' =>
      (p[i]?).bind fun pi =>
        (vs[i]?).map fun vi => vaxpy x' (-pi) vi

/-- Body of the `idx` loop of `inv_jacobian_times_residual` for one
history entry `(D, R, Z)`: `k = Z->size()`; compute the projections
`Z_times_a`; then `b += Σ_i Z_times_a[i]·D[i]`; then
`a -= Σ_i Z_times_a[i]·R[i]`. -/
def ijtrEntry {α : Type} [Field α] {d : ℕ} (D R Z : List (Vec α d))
    (a b : Vec α d) : Option (Vec α d × Vec α d) :=
  let k := Z.length
  let p := projLoop Z a
  (addLoop p D k b).bind fun b' =>
    (subLoop p R k a).map fun a' => (a', b')

/-- Loop `for(idx = Z_history.size()-1; idx >= 0; --idx)`: called with count
`idx+1`, processes entries `idx, idx-1, …, 0`, newest first.  The
`shared_ptr` dereferences are the indexed reads of the three history
lists. -/
def ijtrLoop {α : Type} [Field α] {d : ℕ}
    (Dh Rh Zh : List (List (Vec α d))) :
    ℕ → Vec α d × Vec α d → Option (Vec α d × Vec α d)
  | 0, ab => some ab
  | idx+1, ab =>
    (Dh[idx]?).bind fun D =>
      (Rh[idx]?).bind fun R =>
        (Zh[idx]?).bind fun Z =>
          (ijtrEntry D R Z ab.1 ab.2).bind fun ab' =>
            ijtrLoop Dh Rh Zh idx ab'

/-- Function `inv_jacobian_times_residual(b, D_history, R_history, Z_history,
residual)`: copy `a = residual`, reset `b = 0.0`, run the `idx` loop from
`Z_history.size() - 1` down to `0`, return the final `b`. -/
def inv_jacobian_times_residual {α : Type} [Field α] {d : ℕ}
    (Dh Rh Zh : List (List (Vec α d))) (residual : Vec α d) :
    Option (Vec α d) :=
  (ijtrLoop Dh Rh Zh Zh.length (residual, vzero)).map fun ab => ab.2

/-- One step of the reference recurrence of C2, transcribed from the
claim's words (not from the code): from the current `(a, b)` and an entry
`(D, R, Z)`, compute `p[i] = ⟨Z[i], a⟩` from the current `a`, then
increment `b` by `Σ_i p[i]·D[i]` and decrement `a` by `Σ_i p[i]·R[i]`. -/
def ijtrRefStep {α : Type} [Field α] {d : ℕ}
    (ab : Vec α d × Vec α d)
    (e : List (Vec α d) × (List (Vec α d) × List (Vec α d))) :
    Vec α d × Vec α d :=
  let p : ℕ → α := fun i => vdot ((e.2.2).getD i vzero) ab.1
  (fun t => ab.1 t -
     ∑ i ∈ Finset.range (e.2.2).length, p i * ((e.2.1).getD i vzero) t,
   fun t => ab.2 t +
     ∑ i ∈ Finset.range (e.2.2).length, p i * ((e.1).getD i vzero) t)

/-- Reference recurrence of C2: starting from `a = residual`, `b = 0`,
fold the history entries `(D, R, Z)` from newest (last index) to oldest
(index 0), carrying the deflated `a` to the next older entry. -/
def ijtrRef {α : Type} [Field α] {d : ℕ}
    (entries : List (List (Vec α d) × (List (Vec α d) × List (Vec α d))))
    (residual : Vec α d) : Vec α d × Vec α d :=
  entries.reverse.foldl ijtrRefStep (residual, vzero)

lemma addLoop_spec {α : Type} [Field α] {d : ℕ} (p : List α)
    (vs : List (Vec α d)) :
    ∀ (cnt : ℕ) (x : Vec α d), cnt ≤ p.length → cnt ≤ vs.length →
      addLoop p vs cnt x = some (fun t => x t +
        ∑ i ∈ Finset.range cnt, p.getD i 0 * (vs.getD i vzero) t) := by
  intro cnt
  induction cnt with
  | zero =>
    intro x _ _
    simp [addLoop]
  | succ c ih =>
    intro x hp hv
    rw [addLoop, ih x (by omega) (by omega)]
    simp only [Option.some_bind]
    rw [List.getElem?_eq_getElem (by omega : c < p.length),
        List.getElem?_eq_getElem (by omega : c < vs.length)]
    simp only [Option.some_bind, Option.map_some']
    congr 1
    funext t
    simp only [vaxpy]
    rw [Finset.sum_range_succ,
      List.getD_eq_getElem p 0 (by omega : c < p.length),
      List.getD_eq_getElem vs vzero (by omega : c < vs.length)]
    ring

lemma subLoop_spec {α : Type} [Field α] {d : ℕ} (p : List α)
    (vs : List (Vec α d)) :
    ∀ (cnt : ℕ) (x : Vec α d), cnt ≤ p.length → cnt ≤ vs.length →
      subLoop p vs cnt x = some (fun t => x t -
        ∑ i ∈ Finset.range cnt, p.getD i 0 * (vs.getD i vzero) t) := by
  intro cnt
  induction cnt with
  | zero =>
    intro x _ _
    simp [subLoop]
  | succ c ih =>
    intro x hp hv
    rw [subLoop, ih x (by omega) (by omega)]
    simp only [Option.some_bind]
    rw [List.getElem?_eq_getElem (by omega : c < p.length),
        List.getElem?_eq_getElem (by omega : c < vs.length)]
    simp only [Option.some_bind, Option.map_some']
    congr 1
    funext t
    simp only [vaxpy]
    rw [Finset.sum_range_succ,
      List.getD_eq_getElem p 0 (by omega : c < p.length),
      List.getD_eq_getElem vs vzero (by omega : c < vs.length)]
    ring

lemma projLoop_getD {α : Type} [Field α] {d : ℕ} (Z : List (Vec α d))
    (a : Vec α d) (i : ℕ) (hi : i < Z.length) :
    (projLoop Z a).getD i 0 = vdot (Z.getD i vzero) a := by
  unfold projLoop
  rw [List.getD_eq_getElem _ _ (by simpa using hi), List.getElem_map,
    List.getD_eq_getElem _ _ hi]

lemma ijtrEntry_spec {α : Type} [Field α] {d : ℕ}
    (D R Z : List (Vec α d)) (a b : Vec α d)
    (hD : Z.length ≤ D.length) (hR : Z.length ≤ R.length) :
    ijtrEntry D R Z a b = some (ijtrRefStep (a, b) (D, R, Z)) := by
  unfold ijtrEntry
  dsimp only
  rw [addLoop_spec _ _ Z.length b (by simp [projLoop]) hD]
  simp only [Option.some_bind]
  rw [subLoop_spec _ _ Z.length a (by simp [projLoop]) hR]
  simp only [Option.map_some']
  unfold ijtrRefStep
  dsimp only
  congr 1
  rw [Prod.ext_iff]
  constructor
  · dsimp only
    funext t
    congr 1
    refine Finset.sum_congr rfl ?_
    intro i hi
    simp only [Finset.mem_range] at hi
    rw [projLoop_getD Z a i hi]
  · dsimp only
    funext t
    congr 1
    refine Finset.sum_congr rfl ?_
    intro i hi
    simp only [Finset.mem_range] at hi
    rw [projLoop_getD Z a i hi]

lemma ijtrLoop_spec {α : Type} [Field α] {d : ℕ}
    (Dh Rh Zh : List (List (Vec α d)))
    (hDlen : Dh.length = Zh.length) (hRlen : Rh.length = Zh.length)
    (hk : ∀ i, i < Zh.length →
      (Dh.getD i []).length = (Zh.getD i []).length ∧
      (Rh.getD i []).length = (Zh.getD i []).length) :
    ∀ (idx : ℕ), idx ≤ Zh.length → ∀ (ab : Vec α d × Vec α d),
      ijtrLoop Dh Rh Zh idx ab =
        some (((Dh.zip (Rh.zip Zh)).take idx).reverse.foldl
          ijtrRefStep ab) := by
  intro idx
  induction idx with
  | zero =>
    intro _ ab
    simp [ijtrLoop]
  | succ idx ih =>
    intro hidx ab
    have hiD : idx < Dh.length := by omega
    have hiR : idx < Rh.length := by omega
    have hiZ : idx < Zh.length := by omega
    rw [ijtrLoop,
      List.getElem?_eq_getElem hiD, List.getElem?_eq_getElem hiR,
      List.getElem?_eq_getElem hiZ]
    simp only [Option.some_bind]
    have hke := hk idx hiZ
    rw [List.getD_eq_getElem Dh [] hiD, List.getD_eq_getElem Rh [] hiR,
      List.getD_eq_getElem Zh [] hiZ] at hke
    rw [ijtrEntry_spec (Dh[idx]) (Rh[idx]) (Zh[idx]) ab.1 ab.2
      (le_of_eq hke.1.symm) (le_of_eq hke.2.symm)]
    simp only [Option.some_bind]
    rw [ih (by omega)]
    congr 1
    have hzlen : idx < (Dh.zip (Rh.zip Zh)).length := by
      rw [List.length_zip, List.length_zip]
      omega
    rw [List.take_succ, List.getElem?_eq_getElem hzlen]
    simp only [Option.toList_some]
    rw [List.reverse_append]
    simp only [List.reverse_cons, List.reverse_nil, List.nil_append,
      List.singleton_append, List.foldl_cons]
    rw [List.getElem_zip, List.getElem_zip]

/-- C2: `inv_jacobian_times_residual` returns exactly the `b` computed by
the reference recurrence `ijtrRef` (accumulator `a` starts at `residual`,
`b` at `0`; entries are processed newest to oldest; per entry the
projections are taken from the current `a`, `b` is incremented by
`Σ p[i]·D[i]` and the deflated `a` is carried on), for histories of equal
length with matching per-entry lengths. -/
theorem inv_jacobian_times_residual_spec {α : Type} [Field α] {d : ℕ}
    (Dh Rh Zh : List (List (Vec α d))) (residual : Vec α d)
    (hDlen : Dh.length = Zh.length) (hRlen : Rh.length = Zh.length)
    (hk : ∀ i, i < Zh.length →
      (Dh.getD i []).length = (Zh.getD i []).length ∧
      (Rh.getD i []).length = (Zh.getD i []).length) :
    inv_jacobian_times_residual Dh Rh Zh residual =
      some ((ijtrRef (Dh.zip (Rh.zip Zh)) residual).2) := by
  unfold inv_jacobian_times_residual ijtrRef
  rw [ijtrLoop_spec Dh Rh Zh hDlen hRlen hk Zh.length le_rfl
    (residual, vzero)]
  simp only [Option.map_some']
  have htake : (Dh.zip (Rh.zip Zh)).take Zh.length = Dh.zip (Rh.zip Zh) := by
    apply List.take_of_length_le
    rw [List.length_zip, List.length_zip]
    omega
  rw [htake]

/-- C2 witness: a single history entry with `Z = [(2)]`, `D = [(3)]`,
`R = [(5)]` and residual `(7)` (the specification theorem applied at this
concrete input). -/
theorem inv_jacobian_times_residual_spec_witness :
    inv_jacobian_times_residual
      [[(fun _ => (3:ℚ) : Vec ℚ 1)]] [[(fun _ => (5:ℚ) : Vec ℚ 1)]]
      [[(fun _ => (2:ℚ) : Vec ℚ 1)]] (fun _ => (7:ℚ)) =
      some ((ijtrRef
        ([[(fun _ => (3:ℚ) : Vec ℚ 1)]].zip
          ([[(fun _ => (5:ℚ) : Vec ℚ 1)]].zip
            [[(fun _ => (2:ℚ) : Vec ℚ 1)]]))
        (fun _ => (7:ℚ))).2) :=
  inv_jacobian_times_residual_spec _ _ _ _ rfl rfl (by decide)

/-- Store-level model of `b.add(Z_times_a[i], (*D)[i])`: the output
argument `b` of `inv_jacobian_times_residual` is a caller-owned vector,
held in a store over locations `L` at location `bLoc`; each loop
iteration reads the cell, adds, and writes it back. -/
def addLoopStore {α : Type} [Field α] {d : ℕ} {L : Type} [DecidableEq L]
    (bLoc : L) (p : List α) (vs : List (Vec α d)) :
    ℕ → (L → Vec α d) → Option (L → Vec α d)
  | 0, s => some s
  | i+1, s =>
    (addLoopStore bLoc p vs i s).bind fun s' =>
      (p[i]?).bind fun pi =>
        (vs[i]?).map fun vi =>
          Function.update s' bLoc (vaxpy (s' bLoc) pi vi)

/-- Store-level body of the `idx` loop: only the `b` updates go through
the store; the accumulator `a` is a local. -/
def ijtrEntryStore {α : Type} [Field α] {d : ℕ} {L : Type} [DecidableEq L]
    (bLoc : L) (D R Z : List (Vec α d)) (a : Vec α d) (s : L → Vec α d) :
    Option (Vec α d × (L → Vec α d)) :=
  let k := Z.length
  let p := projLoop Z a
  (addLoopStore bLoc p D k s).bind fun s' =>
    (subLoop p R k a).map fun a' => (a', s')

/-- Store-level `idx` loop of `inv_jacobian_times_residual`. -/
def ijtrLoopStore {α : Type} [Field α] {d : ℕ} {L : Type} [DecidableEq L]
    (bLoc : L) (Dh Rh Zh : List (List (Vec α d))) :
    ℕ → Vec α d × (L → Vec α d) → Option (Vec α d × (L → Vec α d))
  | 0, as => some as
  | idx+1, as =>
    (Dh[idx]?).bind fun D =>
      (Rh[idx]?).bind fun R =>
        (Zh[idx]?).bind fun Z =>
          (ijtrEntryStore bLoc D R Z as.1 as.2).bind fun as' =>
            ijtrLoopStore bLoc Dh Rh Zh idx as'

/-- Store-level `inv_jacobian_times_residual`, faithful to statement
order: `VectorType a = residual` reads `rLoc` first, `b = 0.0` then
zeroes `bLoc` — so when `bLoc = rLoc` (the caller aliases output and
input) the residual cell is clobbered only after `a` has been copied. -/
def inv_jacobian_times_residual_store {α : Type} [Field α] {d : ℕ}
    {L : Type} [DecidableEq L] (bLoc rLoc : L)
    (Dh Rh Zh : List (List (Vec α d))) (store : L → Vec α d) :
    Option (L → Vec α d) :=
  let a := store rLoc
  let s1 := Function.update store bLoc vzero
  (ijtrLoopStore bLoc Dh Rh Zh Zh.length (a, s1)).map fun as => as.2

lemma addLoopStore_spec {α : Type} [Field α] {d : ℕ} {L : Type}
    [DecidableEq L] (bLoc : L) (p : List α) (vs : List (Vec α d)) :
    ∀ (cnt : ℕ) (s : L → Vec α d),
      addLoopStore bLoc p vs cnt s =
        (addLoop p vs cnt (s bLoc)).map
          (fun b' => Function.update s bLoc b') := by
  intro cnt
  induction cnt with
  | zero =>
    intro s
    simp [addLoopStore, addLoop, Function.update_eq_self]
  | succ c ih =>
    intro s
    rw [addLoopStore, addLoop, ih s]
    cases hb : addLoop p vs c (s bLoc) with
    | none => rfl
    | some b' =>
      simp only [Option.map_some', Option.some_bind]
      cases hp : p[c]? with
      | none => rfl
      | some pi =>
        simp only [Option.some_bind]
        cases hv : vs[c]? with
        | none => rfl
        | some vi =>
          simp only [Option.map_some']
          congr 1
          rw [Function.update_same, Function.update_idem]

lemma ijtrEntryStore_spec {α : Type} [Field α] {d : ℕ} {L : Type}
    [DecidableEq L] (bLoc : L) (D R Z : List (Vec α d)) (a : Vec α d)
    (s : L → Vec α d) :
    ijtrEntryStore bLoc D R Z a s =
      (ijtrEntry D R Z a (s bLoc)).map
        (fun ab => (ab.1, Function.update s bLoc ab.2)) := by
  unfold ijtrEntryStore ijtrEntry
  dsimp only
  rw [addLoopStore_spec]
  cases hb : addLoop (projLoop Z a) D Z.length (s bLoc) with
  | none => rfl
  | some b' =>
    simp only [Option.map_some', Option.some_bind, Option.map_map]
    cases ha : subLoop (projLoop Z a) R Z.length a with
    | none => rfl
    | some a' =>
      simp only [Option.map_some', Function.comp]

lemma ijtrLoopStore_spec {α : Type} [Field α] {d : ℕ} {L : Type}
    [DecidableEq L] (bLoc : L) (Dh Rh Zh : List (List (Vec α d))) :
    ∀ (idx : ℕ) (as : Vec α d × (L → Vec α d)),
      ijtrLoopStore bLoc Dh Rh Zh idx as =
        (ijtrLoop Dh Rh Zh idx (as.1, as.2 bLoc)).map
          (fun ab => (ab.1, Function.update as.2 bLoc ab.2)) := by
  intro idx
  induction idx with
  | zero =>
    intro as
    simp [ijtrLoopStore, ijtrLoop, Function.update_eq_self]
  | succ idx ih =>
    intro as
    rw [ijtrLoopStore, ijtrLoop]
    cases hD : Dh[idx]? with
    | none => rfl
    | some D =>
      simp only [Option.some_bind]
      cases hR : Rh[idx]? with
      | none => rfl
      | some R =>
        simp only [Option.some_bind]
        cases hZ : Zh[idx]? with
        | none => rfl
        | some Z =>
          simp only [Option.some_bind]
          rw [ijtrEntryStore_spec]
          cases he : ijtrEntry D R Z as.1 (as.2 bLoc) with
          | none => rfl
          | some ab' =>
            simp only [Option.map_some', Option.some_bind]
            rw [ih]
            simp only [Function.update_same]
            cases hl : ijtrLoop Dh Rh Zh idx ab' with
            | none => rfl
            | some ab'' =>
              simp only [Option.map_some']
              congr 1
              rw [Function.update_idem]

/-- C9: `inv_jacobian_times_residual` is aliasing-safe — when the output
`b` and the input `residual` live in the same cell (`bLoc` both), the
final content of that cell is still exactly the `b` of the reference
recurrence applied to the cell's original value, because
`VectorType a = residual` copies the cell before `b = 0.0` clobbers it;
all other cells are untouched. -/
theorem inv_jacobian_times_residual_alias_safe {α : Type} [Field α]
    {d : ℕ} {L : Type} [DecidableEq L] (bLoc : L)
    (Dh Rh Zh : List (List (Vec α d))) (store : L → Vec α d)
    (hDlen : Dh.length = Zh.length) (hRlen : Rh.length = Zh.length)
    (hk : ∀ i, i < Zh.length →
      (Dh.getD i []).length = (Zh.getD i []).length ∧
      (Rh.getD i []).length = (Zh.getD i []).length) :
    inv_jacobian_times_residual_store bLoc bLoc Dh Rh Zh store =
      some (Function.update store bLoc
        ((ijtrRef (Dh.zip (Rh.zip Zh)) (store bLoc)).2)) := by
  unfold inv_jacobian_times_residual_store
  dsimp only
  rw [ijtrLoopStore_spec]
  simp only [Function.update_same]
  rw [ijtrLoop_spec Dh Rh Zh hDlen hRlen hk Zh.length le_rfl
    (store bLoc, vzero)]
  simp only [Option.map_some']
  have htake : (Dh.zip (Rh.zip Zh)).take Zh.length = Dh.zip (Rh.zip Zh) := by
    apply List.take_of_length_le
    rw [List.length_zip, List.length_zip]
    omega
  rw [htake]
  congr 1
  rw [Function.update_idem]
  rfl

/-- C9 witness: the aliasing theorem applied at a concrete input — one
history entry `Z = [(2)]`, `D = [(3)]`, `R = [(5)]`, and a one-cell store
(output and residual share the single cell, initially `(7)`). -/
theorem inv_jacobian_times_residual_alias_safe_witness :
    inv_jacobian_times_residual_store () ()
      [[(fun _ => (3:ℚ) : Vec ℚ 1)]] [[(fun _ => (5:ℚ) : Vec ℚ 1)]]
      [[(fun _ => (2:ℚ) : Vec ℚ 1)]]
      (fun _ => (fun _ => (7:ℚ) : Vec ℚ 1)) =
      some (Function.update (fun _ => (fun _ => (7:ℚ) : Vec ℚ 1)) ()
        ((ijtrRef
          ([[(fun _ => (3:ℚ) : Vec ℚ 1)]].zip
            ([[(fun _ => (5:ℚ) : Vec ℚ 1)]].zip
              [[(fun _ => (2:ℚ) : Vec ℚ 1)]]))
          ((fun _ => (fun _ => (7:ℚ) : Vec ℚ 1)) ())).2)) :=
  inv_jacobian_times_residual_alias_safe () _ _ _ _ rfl rfl (by decide)

/-- Norm `v.l2_norm()`: the euclidean norm, on the real idealization of
machine doubles. -/
noncomputable def l2_norm {d : ℕ} (v : Vec ℝ d) : ℝ :=
  Real.sqrt (vdot v v)

/-- One step `j` of the orthogonalization loop of
`compute_QR_decomposition`:
`r_ji = Q[j] * Q[i]; R.set(r_ji, j, i); Q[i].add(-r_ji, Q[j]);`.
The in-place array `Q` is modelled as a function from indices. -/
noncomputable def orthStep {d : ℕ} (i j : ℕ)
    (QR : (ℕ → Vec ℝ d) × Matrix ℝ) :
    Option ((ℕ → Vec ℝ d) × Matrix ℝ) :=
  let r_ji := vdot (QR.1 j) (QR.1 i)
  (QR.2.set r_ji j i).map fun R' =>
    (Function.update QR.1 i (vaxpy (QR.1 i) (-r_ji) (QR.1 j)), R')

/-- Loop `for(j = 0; j < cnt; ++j)` of the orthogonalization loop; the source
runs it with `cnt = i`. -/
noncomputable def orthLoop {d : ℕ} (i : ℕ) :
    ℕ → (ℕ → Vec ℝ d) × Matrix ℝ → Option ((ℕ → Vec ℝ d) × Matrix ℝ)
  | 0, QR => some QR
  | j+1, QR => (orthLoop i j QR).bind (orthStep i j)

/-- Loop `for(j = 0; j < i; ++j) R.set(0.0, j, i);` of the drop branch. -/
def zeroColLoop (i : ℕ) : ℕ → Matrix ℝ → Option (Matrix ℝ)
  | 0, R => some R
  | j+1, R => (zeroColLoop i j R).bind fun R' => R'.set 0 j i

/-- Body of the column loop of `compute_QR_decomposition` for column `i`:
record `norm_initial = Q[i].l2_norm()`, orthogonalize against the earlier
columns, compute `r_ii = Q[i].l2_norm()`, then either drop the column
(`r_ii < eps * norm_initial`: zero `Q[i]`, zero `R[j][i]` for `j < i`,
set the sentinel `R[i][i] = 1`) or normalize (`R[i][i] = r_ii`,
`Q[i] *= 1/r_ii`).  The returned Boolean records which branch ran
(`true` = drop); it is a proof artifact projected away in
`compute_QR_decomposition`. -/
noncomputable def qrColumn {d : ℕ} (eps : ℝ) (i : ℕ)
    (QR : (ℕ → Vec ℝ d) × Matrix ℝ) :
    Option ((ℕ → Vec ℝ d) × Matrix ℝ × Bool) :=
  let norm_initial := l2_norm (QR.1 i)
  (orthLoop i i QR).bind fun QR1 =>
    let r_ii := l2_norm (QR1.1 i)
    if r_ii < eps * norm_initial then
      (zeroColLoop i i QR1.2).bind fun R2 =>
        (R2.set 1 i i).map fun R3 =>
          (Function.update QR1.1 i vzero, R3, true)
    else
      (QR1.2.set r_ii i i).map fun R2 =>
        (Function.update QR1.1 i (vsmul (1 / r_ii) (QR1.1 i)), R2, false)

/-- The column loop `for(i = 0; i < Q.size(); ++i)`, with the branch
flags accumulated in column order. -/
noncomputable def qrLoop {d : ℕ} (eps : ℝ) :
    ℕ → (ℕ → Vec ℝ d) × Matrix ℝ →
      Option ((ℕ → Vec ℝ d) × Matrix ℝ × List Bool)
  | 0, QR => some (QR.1, QR.2, [])
  | i+1, QR =>
    (qrLoop eps i QR).bind fun QRf =>
      (qrColumn eps i (QRf.1, QRf.2.1)).map fun QRb =>
        (QRb.1, QRb.2.1, QRf.2.2 ++ [QRb.2.2])

/-- Function `compute_QR_decomposition(Q, R, eps)` with `m = Q.size()` (the source
default is `eps = 1.e-2`); returns the final `Q` and `R`, dropping the
branch flags of `qrLoop`. -/
noncomputable def compute_QR_decomposition {d : ℕ} (m : ℕ)
    (Q : ℕ → Vec ℝ d) (R : Matrix ℝ) (eps : ℝ) :
    Option ((ℕ → Vec ℝ d) × Matrix ℝ) :=
  (qrLoop eps m (Q, R)).map fun QRf => (QRf.1, QRf.2.1)

/-- The residual of the sequential (modified Gram-Schmidt) projection:
`gsResid Q v (j+1) = w_j - ⟨Q j, w_j⟩ · Q j` starting from `w_0 = v` —
the value held in `Q[i]` after `j` iterations of the orthogonalization
loop. -/
noncomputable def gsResid {d : ℕ} (Q : ℕ → Vec ℝ d) (v : Vec ℝ d) :
    ℕ → Vec ℝ d
  | 0 => v
  | j+1 => vaxpy (gsResid Q v j) (-(vdot (Q j) (gsResid Q v j))) (Q j)

lemma vdot_comm {α : Type} [Field α] {d : ℕ} (u v : Vec α d) :
    vdot u v = vdot v u := by
  unfold vdot
  exact Finset.sum_congr rfl (fun k _ => mul_comm _ _)

lemma vdot_vaxpy {α : Type} [Field α] {d : ℕ} (u x v : Vec α d) (a : α) :
    vdot u (vaxpy x a v) = vdot u x + a * vdot u v := by
  unfold vdot vaxpy
  rw [Finset.mul_sum, ← Finset.sum_add_distrib]
  exact Finset.sum_congr rfl (fun k _ => by ring)

lemma vdot_vsmul_right {α : Type} [Field α] {d : ℕ} (u v : Vec α d)
    (c : α) : vdot u (vsmul c v) = c * vdot u v := by
  unfold vdot vsmul
  rw [Finset.mul_sum]
  exact Finset.sum_congr rfl (fun k _ => by ring)

lemma vdot_vsmul_left {α : Type} [Field α] {d : ℕ} (u v : Vec α d)
    (c : α) : vdot (vsmul c u) v = c * vdot u v := by
  unfold vdot vsmul
  rw [Finset.mul_sum]
  exact Finset.sum_congr rfl (fun k _ => by ring)

lemma vdot_self_nonneg {d : ℕ} (v : Vec ℝ d) : 0 ≤ vdot v v :=
  Finset.sum_nonneg (fun k _ => mul_self_nonneg (v k))

lemma vzero_eq_zero {α : Type} [Field α] {d : ℕ} :
    (vzero : Vec α d) = 0 := rfl

lemma vdot_self_pos {d : ℕ} (v : Vec ℝ d) (h : v ≠ vzero) :
    0 < vdot v v := by
  rcases lt_or_eq_of_le (vdot_self_nonneg v) with hlt | heq
  · exact hlt
  · exfalso
    apply h
    funext k
    have hall := (Finset.sum_eq_zero_iff_of_nonneg
      (fun k _ => mul_self_nonneg (v k))).mp heq.symm
    have := hall k (Finset.mem_univ k)
    exact mul_self_eq_zero.mp this

lemma l2_norm_sq {d : ℕ} (v : Vec ℝ d) :
    l2_norm v * l2_norm v = vdot v v := by
  unfold l2_norm
  exact Real.mul_self_sqrt (vdot_self_nonneg v)

lemma l2_norm_pos {d : ℕ} (v : Vec ℝ d) (h : v ≠ vzero) :
    0 < l2_norm v := by
  unfold l2_norm
  exact Real.sqrt_pos.mpr (vdot_self_pos v h)

lemma Matrix.entry_of_get {α : Type} [Zero α] {A : Matrix α} {i j : ℕ}
    {v : α} (h : A.get i j = some v) : A.entry i j = v := by
  by_cases hij : i < A.M ∧ j < A.M
  · have := A.get_in_range hij.1 hij.2
    rw [this] at h
    exact Option.some.inj h
  · unfold Matrix.get at h
    rw [if_neg hij] at h
    cases h

lemma orthLoop_of_success {d : ℕ} (i : ℕ) :
    ∀ (cnt : ℕ) (Q Q' : ℕ → Vec ℝ d) (R R' : Matrix ℝ), cnt ≤ i →
      orthLoop i cnt (Q, R) = some (Q', R') →
      R'.M = R.M ∧
      (∀ x, x ≠ i → Q' x = Q x) ∧
      (∀ a b, b ≠ i → R'.get a b = R.get a b) ∧
      (∀ a, cnt ≤ a → R'.get a i = R.get a i) ∧
      Q' i = gsResid Q (Q i) cnt ∧
      (∀ l, l < cnt → R'.get l i =
        some (vdot (Q l) (gsResid Q (Q i) l))) := by
  intro cnt
  induction cnt with
  | zero =>
    intro Q Q' R R' _ h
    simp only [orthLoop, Option.some.injEq, Prod.mk.injEq] at h
    obtain ⟨rfl, rfl⟩ := h
    refine ⟨rfl, fun x _ => rfl, fun a b _ => rfl, fun a _ => rfl, ?_,
      fun l hl => absurd hl (by omega)⟩
    simp [gsResid]
  | succ c ih =>
    intro Q Q' R R' hci h
    rw [orthLoop] at h
    cases hmid : orthLoop i c (Q, R) with
    | none =>
      rw [hmid] at h
      cases h
    | some QR1 =>
      obtain ⟨Q1, R1⟩ := QR1
      rw [hmid] at h
      simp only [Option.some_bind] at h
      obtain ⟨hM1, hQ1, hR1, hcol1, hQi1, hent1⟩ := ih Q Q1 R R1 (by omega) hmid
      unfold orthStep at h
      dsimp only at h
      cases hset : R1.set (vdot (Q1 c) (Q1 i)) c i with
      | none =>
        rw [hset] at h
        cases h
      | some R2 =>
        rw [hset] at h
        simp only [Option.map_some', Option.some.injEq, Prod.mk.injEq] at h
        obtain ⟨hQ', hR'⟩ := h
        subst hQ'
        subst hR'
        have hcne : c ≠ i := by omega
        constructor
        · rw [Matrix.set_M hset, hM1]
        constructor
        · intro x hx
          rw [Function.update_noteq hx, hQ1 x hx]
        constructor
        · intro a b hb
          rw [Matrix.get_set_ne hset a b (by tauto), hR1 a b hb]
        constructor
        · intro a ha
          rw [Matrix.get_set_ne hset a i (by omega), hcol1 a (by omega)]
        constructor
        · rw [Function.update_same]
          rw [hQi1, hQ1 c hcne]
          simp [gsResid]
        · intro l hl
          by_cases hlc : l = c
          · subst hlc
            rw [Matrix.get_set_same hset, hQi1, hQ1 l hcne]
          · rw [Matrix.get_set_ne hset l i (by tauto), hent1 l (by omega)]

lemma zeroColLoop_of_success (i : ℕ) :
    ∀ (cnt : ℕ) (R R' : Matrix ℝ), zeroColLoop i cnt R = some R' →
      R'.M = R.M ∧
      (∀ l, l < cnt → R'.get l i = some 0) ∧
      (∀ a b, ¬(b = i ∧ a < cnt) → R'.get a b = R.get a b) := by
  intro cnt
  induction cnt with
  | zero =>
    intro R R' h
    simp only [zeroColLoop, Option.some.injEq] at h
    subst h
    exact ⟨rfl, fun l hl => absurd hl (by omega), fun a b _ => rfl⟩
  | succ c ih =>
    intro R R' h
    rw [zeroColLoop] at h
    cases hmid : zeroColLoop i c R with
    | none =>
      rw [hmid] at h
      cases h
    | some R1 =>
      rw [hmid] at h
      simp only [Option.some_bind] at h
      obtain ⟨hM1, hval1, hfr1⟩ := ih R R1 hmid
      constructor
      · rw [Matrix.set_M h, hM1]
      constructor
      · intro l hl
        by_cases hlc : l = c
        · subst hlc
          exact Matrix.get_set_same h
        · rw [Matrix.get_set_ne h l i (by tauto)]
          exact hval1 l (by omega)
      · intro a b hab
        rw [Matrix.get_set_ne h a b
          (by rintro ⟨hac, hbi⟩; exact hab ⟨hbi, by omega⟩)]
        exact hfr1 a b (by rintro ⟨hbi, hac⟩; exact hab ⟨hbi, by omega⟩)

lemma qrColumn_of_success {d : ℕ} (eps : ℝ) (i : ℕ) (Q Q' : ℕ → Vec ℝ d)
    (R R' : Matrix ℝ) (f : Bool)
    (h : qrColumn eps i (Q, R) = some (Q', R', f)) :
    R'.M = R.M ∧ i < R.M ∧
    (∀ x, x ≠ i → Q' x = Q x) ∧
    (∀ a b, b ≠ i → R'.get a b = R.get a b) ∧
    (∀ a, i < a → R'.get a i = R.get a i) ∧
    (f = true →
      l2_norm (gsResid Q (Q i) i) < eps * l2_norm (Q i) ∧
      Q' i = vzero ∧
      (∀ l, l < i → R'.get l i = some 0) ∧
      R'.get i i = some 1) ∧
    (f = false →
      ¬(l2_norm (gsResid Q (Q i) i) < eps * l2_norm (Q i)) ∧
      Q' i = vsmul (1 / l2_norm (gsResid Q (Q i) i))
        (gsResid Q (Q i) i) ∧
      (∀ l, l < i → R'.get l i =
        some (vdot (Q l) (gsResid Q (Q i) l))) ∧
      R'.get i i = some (l2_norm (gsResid Q (Q i) i))) := by
  unfold qrColumn at h
  dsimp only at h
  cases horth : orthLoop i i (Q, R) with
  | none =>
    rw [horth] at h
    cases h
  | some QR1 =>
    obtain ⟨Q1, R1⟩ := QR1
    rw [horth] at h
    simp only [Option.some_bind] at h
    obtain ⟨hM1, hQ1, hR1, hcol1, hQi1, hent1⟩ :=
      orthLoop_of_success i i Q Q1 R R1 le_rfl horth
    rw [hQi1] at h
    by_cases hcond : l2_norm (gsResid Q (Q i) i) < eps * l2_norm (Q i)
    · rw [if_pos hcond] at h
      cases hz : zeroColLoop i i R1 with
      | none =>
        rw [hz] at h
        cases h
      | some R2 =>
        rw [hz] at h
        simp only [Option.some_bind] at h
        cases hs : R2.set 1 i i with
        | none =>
          rw [hs] at h
          cases h
        | some R3 =>
          rw [hs] at h
          simp only [Option.map_some', Option.some.injEq,
            Prod.mk.injEq] at h
          obtain ⟨hQ', hR', hf⟩ := h
          subst hQ'
          subst hR'
          subst hf
          obtain ⟨hM2, hzval, hzfr⟩ := zeroColLoop_of_success i i R1 R2 hz
          have hiM : i < R.M := by
            have := (Matrix.set_bounds hs).1
            omega
          refine ⟨?_, hiM, ?_, ?_, ?_, ?_, ?_⟩
          · rw [Matrix.set_M hs, hM2, hM1]
          · intro x hx
            rw [Function.update_noteq hx, hQ1 x hx]
          · intro a b hb
            rw [Matrix.get_set_ne hs a b (by tauto),
              hzfr a b (by tauto), hR1 a b hb]
          · intro a ha
            rw [Matrix.get_set_ne hs a i (by omega),
              hzfr a i (by omega), hcol1 a (by omega)]
          · intro _
            refine ⟨hcond, Function.update_same _ _ _, ?_, ?_⟩
            · intro l hl
              rw [Matrix.get_set_ne hs l i (by omega)]
              exact hzval l hl
            · exact Matrix.get_set_same hs
          · intro hff
            cases hff
    · rw [if_neg hcond] at h
      cases hs : R1.set (l2_norm (gsResid Q (Q i) i)) i i with
      | none =>
        rw [hs] at h
        cases h
      | some R2 =>
        rw [hs] at h
        simp only [Option.map_some', Option.some.injEq,
          Prod.mk.injEq] at h
        obtain ⟨hQ', hR', hf⟩ := h
        subst hQ'
        subst hR'
        subst hf
        have hiM : i < R.M := by
          have := (Matrix.set_bounds hs).1
          omega
        refine ⟨?_, hiM, ?_, ?_, ?_, ?_, ?_⟩
        · rw [Matrix.set_M hs, hM1]
        · intro x hx
          rw [Function.update_noteq hx, hQ1 x hx]
        · intro a b hb
          rw [Matrix.get_set_ne hs a b (by tauto), hR1 a b hb]
        · intro a ha
          rw [Matrix.get_set_ne hs a i (by omega), hcol1 a (by omega)]
        · intro hft
          cases hft
        · intro _
          refine ⟨hcond, ?_, ?_, Matrix.get_set_same hs⟩
          · rw [Function.update_same]
          · intro l hl
            rw [Matrix.get_set_ne hs l i (by omega)]
            exact hent1 l hl

lemma qrLoop_flags_length {d : ℕ} (eps : ℝ) :
    ∀ (cnt : ℕ) (QR : (ℕ → Vec ℝ d) × Matrix ℝ) X,
      qrLoop eps cnt QR = some X → X.2.2.length = cnt := by
  intro cnt
  induction cnt with
  | zero =>
    intro QR X h
    simp only [qrLoop, Option.some.injEq] at h
    rw [← h]
    rfl
  | succ c ih =>
    intro QR X h
    rw [qrLoop] at h
    cases hmid : qrLoop eps c QR with
    | none =>
      rw [hmid] at h
      cases h
    | some Y =>
      rw [hmid] at h
      simp only [Option.some_bind] at h
      cases hcol : qrColumn eps c (Y.1, Y.2.1) with
      | none =>
        rw [hcol] at h
        cases h
      | some Z =>
        rw [hcol] at h
        simp only [Option.map_some', Option.some.injEq] at h
        rw [← h]
        simp only [List.length_append, List.length_cons,
          List.length_nil]
        rw [ih QR Y hmid]

lemma qrLoop_decompose {d : ℕ} (eps : ℝ) (cnt : ℕ)
    (QR : (ℕ → Vec ℝ d) × Matrix ℝ) (X : _)
    (h : qrLoop eps (cnt+1) QR = some X) :
    ∃ Q1 R1 F1 f, qrLoop eps cnt QR = some (Q1, R1, F1) ∧
      qrColumn eps cnt (Q1, R1) = some (X.1, X.2.1, f) ∧
      X.2.2 = F1 ++ [f] := by
  rw [qrLoop] at h
  cases hmid : qrLoop eps cnt QR with
  | none =>
    rw [hmid] at h
    cases h
  | some Y =>
    obtain ⟨Q1, R1, F1⟩ := Y
    rw [hmid] at h
    simp only [Option.some_bind] at h
    cases hcol : qrColumn eps cnt (Q1, R1) with
    | none =>
      rw [hcol] at h
      cases h
    | some Z =>
      obtain ⟨Q2, R2, f⟩ := Z
      rw [hcol] at h
      simp only [Option.map_some', Option.some.injEq] at h
      refine ⟨Q1, R1, F1, f, rfl, ?_, ?_⟩
      · rw [← h]
        exact hcol
      · rw [← h]

lemma qrLoop_untouched {d : ℕ} (eps : ℝ) :
    ∀ (cnt : ℕ) (Q : ℕ → Vec ℝ d) (R : Matrix ℝ) X,
      qrLoop eps cnt (Q, R) = some X →
      X.2.1.M = R.M ∧
      (∀ x, cnt ≤ x → X.1 x = Q x) ∧
      (∀ a b, cnt ≤ b → X.2.1.get a b = R.get a b) := by
  intro cnt
  induction cnt with
  | zero =>
    intro Q R X h
    simp only [qrLoop, Option.some.injEq] at h
    rw [← h]
    exact ⟨rfl, fun x _ => rfl, fun a b _ => rfl⟩
  | succ c ih =>
    intro Q R X h
    obtain ⟨Q1, R1, F1, f, hmid, hcol, hF⟩ := qrLoop_decompose eps c _ X h
    obtain ⟨hM, hQ, hR⟩ := ih Q R (Q1, R1, F1) hmid
    obtain ⟨hMc, _, hQc, hRc, _, _, _⟩ :=
      qrColumn_of_success eps c Q1 X.1 R1 X.2.1 f hcol
    refine ⟨by rw [hMc]; exact hM, ?_, ?_⟩
    · intro x hx
      rw [hQc x (by omega)]
      exact hQ x (by omega)
    · intro a b hb
      rw [hRc a b (by omega)]
      exact hR a b (by omega)

lemma qrLoop_prefix {d : ℕ} (eps : ℝ) :
    ∀ (cnt' : ℕ) (QR : (ℕ → Vec ℝ d) × Matrix ℝ) X,
      qrLoop eps cnt' QR = some X →
      ∀ cnt, cnt ≤ cnt' →
        ∃ Y, qrLoop eps cnt QR = some Y ∧
          X.2.1.M = Y.2.1.M ∧
          (∀ x, x < cnt → X.1 x = Y.1 x) ∧
          (∀ a b, b < cnt → X.2.1.get a b = Y.2.1.get a b) ∧
          Y.2.2 = X.2.2.take cnt := by
  intro cnt'
  induction cnt' with
  | zero =>
    intro QR X h cnt hc
    have hcz : cnt = 0 := by omega
    subst hcz
    refine ⟨X, h, rfl, fun x hx => absurd hx (by omega),
      fun a b hb => absurd hb (by omega), ?_⟩
    simp only [List.take_zero]
    have := qrLoop_flags_length eps 0 QR X h
    exact List.length_eq_zero.mp this
  | succ c ih =>
    intro QR X h cnt hc
    by_cases hceq : cnt = c + 1
    · subst hceq
      refine ⟨X, h, rfl, fun x _ => rfl, fun a b _ => rfl, ?_⟩
      have := qrLoop_flags_length eps (c+1) QR X h
      rw [← this, List.take_length]
    · obtain ⟨Q1, R1, F1, f, hmid, hcol, hF⟩ := qrLoop_decompose eps c QR X h
      obtain ⟨Y, hY, hYM, hYQ, hYR, hYF⟩ := ih QR (Q1, R1, F1) hmid cnt (by omega)
      obtain ⟨hMc, _, hQc, hRc, _, _, _⟩ :=
        qrColumn_of_success eps c Q1 X.1 R1 X.2.1 f hcol
      refine ⟨Y, hY, by rw [hMc]; exact hYM, ?_, ?_, ?_⟩
      · intro x hx
        rw [hQc x (by omega)]
        exact hYQ x hx
      · intro a b hb
        rw [hRc a b (by omega)]
        exact hYR a b hb
      · rw [hYF, hF]
        have hlen : F1.length = c := by
          have := qrLoop_flags_length eps c QR (Q1, R1, F1) hmid
          exact this
        rw [List.take_append_of_le_length (by omega)]

lemma gsResid_expand {d : ℕ} (Q : ℕ → Vec ℝ d) (v : Vec ℝ d) :
    ∀ (cnt : ℕ) (t : Fin d), v t = gsResid Q v cnt t +
      ∑ l ∈ Finset.range cnt,
        vdot (Q l) (gsResid Q v l) * Q l t := by
  intro cnt
  induction cnt with
  | zero =>
    intro t
    simp [gsResid]
  | succ c ih =>
    intro t
    rw [Finset.sum_range_succ]
    have hstep : gsResid Q v (c+1) t =
        gsResid Q v c t - vdot (Q c) (gsResid Q v c) * Q c t := by
      simp only [gsResid, vaxpy]
      ring
    rw [hstep]
    have := ih t
    linarith

lemma gsResid_dot {d : ℕ} (Q : ℕ → Vec ℝ d) (v : Vec ℝ d) (i : ℕ)
    (horth : ∀ j k, j < i → k < i →
      vdot (Q j) (Q k) = if j = k then 1 else 0) :
    ∀ cnt, cnt ≤ i → ∀ l, l < cnt →
      vdot (Q l) (gsResid Q v cnt) = 0 := by
  intro cnt
  induction cnt with
  | zero =>
    intro _ l hl
    exact absurd hl (by omega)
  | succ c ih =>
    intro hci l hl
    simp only [gsResid]
    rw [vdot_vaxpy]
    by_cases hlc : l = c
    · subst hlc
      rw [horth l l (by omega) (by omega), if_pos rfl]
      ring
    · rw [ih (by omega) l (by omega),
        horth l c (by omega) (by omega), if_neg hlc]
      ring

/-- C4: whenever column `i` took the drop branch (its recorded flag is
`true`, i.e. the post-orthogonalization norm satisfied
`r_ii < eps * norm_initial`), the final factorization has that column
deflated: `Q[i] = 0`, `R[j][i] = 0` for every `j < i`, and the sentinel
`R[i][i] = 1`; the drop branch divides by nothing, so exact arithmetic
produces these values verbatim.  (`compute_QR_decomposition` is the
flag-free projection of `qrLoop`.) -/
theorem qr_deflation {d : ℕ} (eps : ℝ) (m : ℕ) (Q Q' : ℕ → Vec ℝ d)
    (R R' : Matrix ℝ) (F : List Bool) (i : ℕ)
    (hrun : qrLoop eps m (Q, R) = some (Q', R', F))
    (hi : i < m) (hf : F.get? i = some true) :
    compute_QR_decomposition m Q R eps = some (Q', R') ∧
    Q' i = vzero ∧ (∀ l, l < i → R'.get l i = some 0) ∧
    R'.get i i = some 1 := by
  obtain ⟨Y, hY, hYM, hYQ, hYR, hYF⟩ :=
    qrLoop_prefix eps m (Q, R) (Q', R', F) hrun (i+1) (by omega)
  obtain ⟨Q1, R1, F1, f, hmid, hcol, hFdec⟩ :=
    qrLoop_decompose eps i (Q, R) Y hY
  have hlen1 : F1.length = i := qrLoop_flags_length eps i _ _ hmid
  have hfY : Y.2.2.get? i = some f := by
    rw [hFdec, ← hlen1]
    exact List.get?_concat_length F1 f
  have hfX : Y.2.2.get? i = F.get? i := by
    rw [hYF]
    exact List.get?_take (by omega)
  have hft : f = true := by
    rw [hfX, hf] at hfY
    exact (Option.some.inj hfY).symm
  subst hft
  obtain ⟨_, _, _, _, _, htrue, _⟩ :=
    qrColumn_of_success eps i Q1 Y.1 R1 Y.2.1 true hcol
  obtain ⟨_, hQz, hRz, hRone⟩ := htrue rfl
  refine ⟨?_, ?_, ?_, ?_⟩
  · unfold compute_QR_decomposition
    rw [hrun]
    rfl
  · exact (hYQ i (by omega)).trans hQz
  · intro l hl
    exact (hYR l i (by omega)).trans (hRz l hl)
  · exact (hYR i i (by omega)).trans hRone

/-- C1 (amended): with the default threshold `eps = 1e-2` (any positive
`eps`), provided every input vector is non-zero, every diagonal entry of
the factor `R` produced by `compute_QR_decomposition` is present and
non-zero — the drop branch installs the sentinel `1`, and the normalize
branch installs `r_ii ≥ eps·‖v_i‖ > 0` — so a subsequent back
substitution on `R` never divides by zero.  (An exactly zero input
column defeats this: see the counterexample.) -/
theorem qr_diag_nonzero {d : ℕ} (eps : ℝ) (m : ℕ) (Q Q' : ℕ → Vec ℝ d)
    (R R' : Matrix ℝ)
    (heps : 0 < eps)
    (hnz : ∀ x, x < m → Q x ≠ vzero)
    (hrun : compute_QR_decomposition m Q R eps = some (Q', R')) :
    ∀ i, i < m → R'.get i i ≠ none ∧ R'.get i i ≠ some 0 := by
  unfold compute_QR_decomposition at hrun
  cases hX : qrLoop eps m (Q, R) with
  | none =>
    rw [hX] at hrun
    cases hrun
  | some X =>
    rw [hX] at hrun
    simp only [Option.map_some', Option.some.injEq, Prod.mk.injEq] at hrun
    intro i hi
    obtain ⟨Y, hY, hYM, hYQ, hYR, hYF⟩ :=
      qrLoop_prefix eps m (Q, R) X hX (i+1) (by omega)
    obtain ⟨Q1, R1, F1, f, hmid, hcol, hFdec⟩ :=
      qrLoop_decompose eps i (Q, R) Y hY
    obtain ⟨hMc, hiM, hQc, hRc, hRcol, htrue, hfalse⟩ :=
      qrColumn_of_success eps i Q1 Y.1 R1 Y.2.1 f hcol
    obtain ⟨hUM, hUQ, hUR⟩ := qrLoop_untouched eps i Q R (Q1, R1, F1) hmid
    have hQ1i : Q1 i = Q i := hUQ i le_rfl
    have hdiagY : Y.2.1.get i i ≠ none ∧ Y.2.1.get i i ≠ some 0 := by
      cases f with
      | true =>
        obtain ⟨_, _, _, hone⟩ := htrue rfl
        rw [hone]
        refine ⟨by simp, ?_⟩
        intro hcon
        have := Option.some.inj hcon
        norm_num at this
      | false =>
        obtain ⟨hcond, _, _, hval⟩ := hfalse rfl
        rw [hval]
        have hpos : 0 < l2_norm (gsResid Q1 (Q1 i) i) := by
          have hn0 : 0 < l2_norm (Q1 i) := by
            rw [hQ1i]
            exact l2_norm_pos _ (hnz i hi)
          have hge : eps * l2_norm (Q1 i) ≤ l2_norm (gsResid Q1 (Q1 i) i) :=
            not_lt.mp hcond
          nlinarith
        refine ⟨by simp, ?_⟩
        intro hcon
        have := Option.some.inj hcon
        rw [this] at hpos
        exact lt_irrefl _ hpos
    constructor
    · intro hcon
      apply hdiagY.1
      rw [← hYR i i (by omega), hrun.2]
      exact hcon
    · intro hcon
      apply hdiagY.2
      rw [← hYR i i (by omega), hrun.2]
      exact hcon

lemma qr_orthonormal_aux {d : ℕ} (eps : ℝ) (m : ℕ) (Q : ℕ → Vec ℝ d)
    (R0 : Matrix ℝ) (heps : 0 < eps)
    (hnz : ∀ x, x < m → Q x ≠ vzero)
    (hfresh : ∀ a b, a < R0.M → b < R0.M → R0.get a b = some 0)
    (hm : m ≤ R0.M) :
    ∀ cnt, cnt ≤ m → ∀ Qc Rc Fc,
      qrLoop eps cnt (Q, R0) = some (Qc, Rc, Fc) →
      (∀ idx, idx < cnt → Fc.get? idx = some false) →
      (∀ j k, j < cnt → k < cnt →
        vdot (Qc j) (Qc k) = if j = k then 1 else 0) ∧
      (∀ a b, b < cnt → b < a → a < Rc.M → Rc.get a b = some 0) ∧
      (∀ i, i < cnt → ∀ t, Q i t =
        ∑ l ∈ Finset.range (i+1), Rc.entry l i * Qc l t) := by
  intro cnt
  induction cnt with
  | zero =>
    intro _ Qc Rc Fc _ _
    exact ⟨fun j k hj _ => absurd hj (by omega),
      fun a b hb _ _ => absurd hb (by omega),
      fun i hi _ => absurd hi (by omega)⟩
  | succ c ih =>
    intro hcm Qc Rc Fc hrun hflags
    obtain ⟨Q1, R1, F1, f, hmid, hcol, hFdec⟩ :=
      qrLoop_decompose eps c (Q, R0) (Qc, Rc, Fc) hrun
    have hlen1 : F1.length = c := qrLoop_flags_length eps c _ _ hmid
    have hFdec' : Fc = F1 ++ [f] := hFdec
    have hflags1 : ∀ idx, idx < c → F1.get? idx = some false := by
      intro idx hidx
      have hthis := hflags idx (by omega)
      rw [hFdec', List.get?_append (by omega)] at hthis
      exact hthis
    have hffalse : f = false := by
      have hthis := hflags c (by omega)
      rw [hFdec', ← hlen1, List.get?_concat_length] at hthis
      exact Option.some.inj hthis
    subst hffalse
    obtain ⟨horthIH, htriIH, hrecIH⟩ := ih (by omega) Q1 R1 F1 hmid hflags1
    obtain ⟨hMc, hcM, hQc, hRc, hRcol, _, hfalse⟩ :=
      qrColumn_of_success eps c Q1 Qc R1 Rc false hcol
    obtain ⟨hcond, hQval, hent, hdiagval⟩ := hfalse rfl
    obtain ⟨hUM, hUQ, hUR⟩ := qrLoop_untouched eps c Q R0 (Q1, R1, F1) hmid
    have hM1 : R1.M = R0.M := hUM
    have hQ1c : Q1 c = Q c := hUQ c le_rfl
    have hrpos : 0 < l2_norm (gsResid Q1 (Q1 c) c) := by
      have hn0 : 0 < l2_norm (Q1 c) := by
        rw [hQ1c]
        exact l2_norm_pos _ (hnz c (by omega))
      have hge : eps * l2_norm (Q1 c) ≤ l2_norm (gsResid Q1 (Q1 c) c) :=
        not_lt.mp hcond
      nlinarith
    have hrne : l2_norm (gsResid Q1 (Q1 c) c) ≠ 0 := ne_of_gt hrpos
    have hwort : ∀ l, l < c → vdot (Q1 l) (gsResid Q1 (Q1 c) c) = 0 :=
      fun l hl => gsResid_dot Q1 (Q1 c) c horthIH c le_rfl l hl
    refine ⟨?_, ?_, ?_⟩
    · intro j k hj hk
      by_cases hjc : j < c
      · by_cases hkc : k < c
        · rw [hQc j (by omega), hQc k (by omega)]
          exact horthIH j k hjc hkc
        · have hk2 : k = c := by omega
          rw [hk2, hQc j (by omega), hQval, vdot_vsmul_right, hwort j hjc,
            mul_zero, if_neg (by omega)]
      · have hj2 : j = c := by omega
        by_cases hkc : k < c
        · rw [hj2, hQc k (by omega), hQval, vdot_vsmul_left, vdot_comm,
            hwort k hkc, mul_zero, if_neg (by omega)]
        · have hk2 : k = c := by omega
          rw [hj2, hk2, hQval, vdot_vsmul_left, vdot_vsmul_right,
            ← l2_norm_sq, if_pos rfl]
          field_simp
    · intro a b hb hba haM
      by_cases hbc : b = c
      · rw [hbc, hRcol a (by omega)]
        have haR0 : a < R0.M := by omega
        exact (hUR a c le_rfl).trans (hfresh a c haR0 (by omega))
      · have hbc' : b < c := by omega
        rw [hRc a b hbc]
        exact htriIH a b hbc' hba (by omega)
    · intro i hi t
      by_cases hic : i < c
      · rw [hrecIH i hic t]
        refine Finset.sum_congr rfl ?_
        intro l hl
        simp only [Finset.mem_range] at hl
        have he : Rc.entry l i = R1.entry l i := by
          apply Matrix.entry_of_get
          rw [hRc l i (by omega)]
          exact R1.get_in_range (by omega) (by omega)
        rw [he, hQc l (by omega)]
      · have hieq : i = c := by omega
        rw [hieq, Finset.sum_range_succ]
        have hdiage : Rc.entry c c = l2_norm (gsResid Q1 (Q1 c) c) :=
          Matrix.entry_of_get hdiagval
        have hsum : ∑ l ∈ Finset.range c, Rc.entry l c * Qc l t =
            ∑ l ∈ Finset.range c,
              vdot (Q1 l) (gsResid Q1 (Q1 c) l) * Q1 l t := by
          refine Finset.sum_congr rfl ?_
          intro l hl
          simp only [Finset.mem_range] at hl
          rw [Matrix.entry_of_get (hent l hl), hQc l (by omega)]
        rw [hsum, hdiage, hQval]
        have hvs : vsmul (1 / l2_norm (gsResid Q1 (Q1 c) c))
            (gsResid Q1 (Q1 c) c) t =
            (1 / l2_norm (gsResid Q1 (Q1 c) c)) * gsResid Q1 (Q1 c) c t :=
          rfl
        rw [hvs]
        have hcancel : l2_norm (gsResid Q1 (Q1 c) c) *
            ((1 / l2_norm (gsResid Q1 (Q1 c) c)) * gsResid Q1 (Q1 c) c t) =
            gsResid Q1 (Q1 c) c t := by
          field_simp
        rw [hcancel, ← hQ1c]
        have hexp := gsResid_expand Q1 (Q1 c) c t
        linarith

/-- C5 (amended): for linearly independent input vectors *such that no
column triggers the drop branch* (all recorded flags `false` — linear
independence alone does not prevent the `eps`-threshold drop, see the
counterexample), the factorization `compute_QR_decomposition` (the
flag-free projection of `qrLoop`) makes the columns of `Q` pairwise
orthonormal, fills `R` upper-triangular (given `R` enters
zero-initialized, as built by the constructor), and for every `i` the
combination `Σ_{j ≤ i} R[j][i]·Q[j]` reconstructs the `i`-th input
vector in its own slot — no column reordering. -/
theorem qr_orthonormal_reconstruction {d : ℕ} (eps : ℝ) (m : ℕ)
    (Q Q' : ℕ → Vec ℝ d) (R0 R' : Matrix ℝ) (F : List Bool)
    (heps : 0 < eps)
    (hfresh : ∀ a b, a < R0.M → b < R0.M → R0.get a b = some 0)
    (hm : m ≤ R0.M)
    (hlin : LinearIndependent ℝ (fun x : Fin m => Q x.val))
    (hrun : qrLoop eps m (Q, R0) = some (Q', R', F))
    (hflags : ∀ idx, idx < m → F.get? idx = some false) :
    compute_QR_decomposition m Q R0 eps = some (Q', R') ∧
    (∀ j k, j < m → k < m →
      vdot (Q' j) (Q' k) = if j = k then 1 else 0) ∧
    (∀ a b, b < m → b < a → a < R'.M → R'.get a b = some 0) ∧
    (∀ i, i < m → ∀ t, Q i t =
      ∑ l ∈ Finset.range (i+1), R'.entry l i * Q' l t) := by
  have hnz : ∀ x, x < m → Q x ≠ vzero := by
    intro x hx hcon
    have hne := hlin.ne_zero ⟨x, hx⟩
    apply hne
    rw [vzero_eq_zero] at hcon
    exact hcon
  refine ⟨?_, qr_orthonormal_aux eps m Q R0 heps hnz hfresh hm m le_rfl
    Q' R' F hrun hflags⟩
  unfold compute_QR_decomposition
  rw [hrun]
  rfl

/-- Concrete input family: every column is the 1-dimensional vector
`(2)` (so with `m = 2` the two columns are identical non-zero vectors). -/
noncomputable def qrTwoInput : ℕ → Vec ℝ 1 := fun _ => fun _ => 2

lemma qrTwoInput_norm : l2_norm (qrTwoInput 0) = 2 := by
  unfold l2_norm vdot qrTwoInput
  rw [Fin.sum_univ_one]
  rw [show (2:ℝ) * 2 = 2^2 by norm_num, Real.sqrt_sq (by norm_num)]

lemma qr_run_single :
    qrLoop (1/100) 1 (qrTwoInput, Matrix.make ℝ 1) =
      some (Function.update qrTwoInput 0 (vsmul (1/2) (qrTwoInput 0)),
        Matrix.mk 1 [2] rfl, [false]) := by
  simp only [qrLoop, Option.some_bind]
  unfold qrColumn
  dsimp only
  simp only [orthLoop, Option.some_bind]
  rw [qrTwoInput_norm]
  rw [if_neg (by norm_num : ¬((2:ℝ) < 1/100 * 2))]
  rw [Matrix.set_in_range _ _ (by norm_num [Matrix.make])
    (by norm_num [Matrix.make])]
  simp only [Option.map_some']
  congr 1

/-- C1 counterexample: feeding a single exactly-zero input vector (with
the default `eps = 1e-2`), the drop test `r_ii < eps * norm_initial`
reads `0 < 0` and fails, so the *normalize* branch runs and stores
`R[0][0] = r_ii = 0` — a zero diagonal entry, contradicting the claim
that the factorization guarantees a non-zero diagonal for every input
list including zero vectors. -/
theorem qr_zero_vector_diag_zero :
    (compute_QR_decomposition 1 (fun _ => (vzero : Vec ℝ 1))
      (Matrix.make ℝ 1) (1/100)).map (fun QR => QR.2.get 0 0) =
      some (some 0) := by
  have hz : l2_norm (vzero : Vec ℝ 1) = 0 := by
    unfold l2_norm
    rw [show vdot (vzero : Vec ℝ 1) vzero = 0 by simp [vdot, vzero],
      Real.sqrt_zero]
  unfold compute_QR_decomposition
  simp only [qrLoop, Option.some_bind]
  unfold qrColumn
  dsimp only
  simp only [orthLoop, Option.some_bind]
  rw [hz]
  rw [if_neg (by norm_num : ¬((0:ℝ) < 1/100 * 0))]
  rw [Matrix.set_in_range _ _ (by norm_num [Matrix.make])
    (by norm_num [Matrix.make])]
  simp only [Option.map_some']
  congr 1

/-- C1 witness: the diagonal non-degeneracy theorem applied to the
concrete non-zero single-column input `(2)` — the produced `R` has
`R[0][0] = 2 ≠ 0`. -/
theorem qr_diag_nonzero_witness :
    (Matrix.mk 1 [(2:ℝ)] rfl).get 0 0 ≠ some 0 := by
  have hrun : compute_QR_decomposition 1 qrTwoInput (Matrix.make ℝ 1)
      (1/100) = some (Function.update qrTwoInput 0
        (vsmul (1/2) (qrTwoInput 0)), Matrix.mk 1 [2] rfl) := by
    unfold compute_QR_decomposition
    rw [qr_run_single]
    rfl
  exact (qr_diag_nonzero (1/100) 1 qrTwoInput _ (Matrix.make ℝ 1) _
    (by norm_num)
    (fun x hx hcon => by
      have hc := congrFun hcon 0
      norm_num [qrTwoInput, vzero] at hc)
    hrun 0 (by norm_num)).2

/-- C5 witness: the orthonormality theorem applied to the concrete
linearly independent single column `(2)` (no deflation occurs); the
output column is unit: `⟨Q'[0], Q'[0]⟩ = 1`. -/
theorem qr_orthonormal_reconstruction_witness :
    vdot (Function.update qrTwoInput 0 (vsmul (1/2) (qrTwoInput 0)) 0)
      (Function.update qrTwoInput 0 (vsmul (1/2) (qrTwoInput 0)) 0) =
      1 := by
  have hfresh : ∀ a b, a < (Matrix.make ℝ 1).M → b < (Matrix.make ℝ 1).M →
      (Matrix.make ℝ 1).get a b = some 0 := by
    intro a b ha hb
    have ha' : a = 0 := by simp [Matrix.make] at ha; omega
    have hb' : b = 0 := by simp [Matrix.make] at hb; omega
    subst ha'
    subst hb'
    unfold Matrix.get Matrix.make
    rw [if_pos (by norm_num)]
    rfl
  have hlin : LinearIndependent ℝ (fun x : Fin 1 => qrTwoInput x.val) := by
    apply linearIndependent_unique
    intro hcon
    have hc := congrFun hcon 0
    norm_num [qrTwoInput] at hc
  have h := qr_orthonormal_reconstruction (1/100) 1 qrTwoInput _
    (Matrix.make ℝ 1) _ [false] (by norm_num) hfresh
    (by norm_num [Matrix.make]) hlin qr_run_single (by decide)
  have horth := h.2.1 0 0 (by norm_num) (by norm_num)
  simpa using horth

lemma vdot_two_two : vdot (qrTwoInput 0) (qrTwoInput 0) = 4 := by
  unfold vdot qrTwoInput
  rw [Fin.sum_univ_one]
  norm_num

lemma qr_col0_pair :
    qrColumn (1/100) 0 (qrTwoInput, Matrix.make ℝ 2) =
      some (Function.update qrTwoInput 0 (vsmul (1/2) (qrTwoInput 0)),
        Matrix.mk 2 [2, 0, 0, 0] rfl, false) := by
  unfold qrColumn
  dsimp only
  simp only [orthLoop, Option.some_bind]
  rw [qrTwoInput_norm]
  rw [if_neg (by norm_num : ¬((2:ℝ) < 1/100 * 2))]
  rw [Matrix.set_in_range _ _ (by norm_num [Matrix.make])
    (by norm_num [Matrix.make])]
  simp only [Option.map_some']
  congr 1

lemma qr_col1_pair :
    qrColumn (1/100) 1
      (Function.update qrTwoInput 0 (vsmul (1/2) (qrTwoInput 0)),
        Matrix.mk 2 [2, 0, 0, 0] rfl) =
      some (Function.update (Function.update qrTwoInput 0
          (vsmul (1/2) (qrTwoInput 0))) 1 vzero,
        Matrix.mk 2 [2, 0, 0, 1] rfl, true) := by
  have hQ11 : (Function.update qrTwoInput 0
      (vsmul (1/2) (qrTwoInput 0))) 1 = qrTwoInput 0 := by
    rw [Function.update_noteq (by norm_num : (1:ℕ) ≠ 0)]
    rfl
  have hQ10 : (Function.update qrTwoInput 0
      (vsmul (1/2) (qrTwoInput 0))) 0 = vsmul (1/2) (qrTwoInput 0) :=
    Function.update_same _ _ _
  have hr : vdot (vsmul (1/2) (qrTwoInput 0)) (qrTwoInput 0) = 2 := by
    rw [vdot_vsmul_left, vdot_two_two]
    norm_num
  have hwnorm : l2_norm (vaxpy (qrTwoInput 0) (-2)
      (vsmul (1/2) (qrTwoInput 0))) = 0 := by
    unfold l2_norm
    rw [show vdot (vaxpy (qrTwoInput 0) (-2) (vsmul (1/2) (qrTwoInput 0)))
        (vaxpy (qrTwoInput 0) (-2) (vsmul (1/2) (qrTwoInput 0))) = 0 by
      unfold vdot vaxpy vsmul qrTwoInput
      rw [Fin.sum_univ_one]
      norm_num]
    exact Real.sqrt_zero
  unfold qrColumn
  dsimp only
  simp only [orthLoop, Option.some_bind]
  unfold orthStep
  dsimp only
  rw [hQ11, hQ10, hr]
  rw [Matrix.set_in_range _ _ (by norm_num) (by norm_num)]
  simp only [Option.some_bind, Option.map_some']
  rw [Function.update_same, hwnorm, qrTwoInput_norm]
  rw [if_pos (by norm_num : (0:ℝ) < 1/100 * 2)]
  simp only [zeroColLoop, Option.some_bind]
  rw [Matrix.set_in_range _ _ (by norm_num) (by norm_num)]
  simp only [Option.some_bind]
  rw [Matrix.set_in_range _ _ (by norm_num) (by norm_num)]
  simp only [Option.map_some']
  rw [Function.update_idem]
  congr 1

lemma qr_run_pair :
    qrLoop (1/100) 2 (qrTwoInput, Matrix.make ℝ 2) =
      some (Function.update (Function.update qrTwoInput 0
          (vsmul (1/2) (qrTwoInput 0))) 1 vzero,
        Matrix.mk 2 [2, 0, 0, 1] rfl, [false, true]) := by
  simp only [qrLoop, Option.some_bind]
  rw [qr_col0_pair]
  simp only [Option.some_bind, Option.map_some']
  rw [qr_col1_pair]
  simp only [Option.map_some']
  rfl

/-- C4 witness: the deflation theorem applied to the concrete input of
two identical non-zero columns `(2)`, `(2)`: the output has `Q[1] = 0`,
`R[1][1] = 1`, `R[0][1] = 0` (and exact arithmetic — no NaN/Inf). -/
theorem qr_deflation_witness :
    (Function.update (Function.update qrTwoInput 0
      (vsmul (1/2) (qrTwoInput 0))) 1 vzero) 1 = vzero ∧
    (Matrix.mk 2 [(2:ℝ), 0, 0, 1] rfl).get 1 1 = some 1 ∧
    (Matrix.mk 2 [(2:ℝ), 0, 0, 1] rfl).get 0 1 = some 0 := by
  have h := qr_deflation (1/100) 2 qrTwoInput _ (Matrix.make ℝ 2) _
    [false, true] 1 qr_run_pair (by norm_num) rfl
  exact ⟨h.2.1, h.2.2.2, h.2.2.1 0 (by norm_num)⟩

/-- Concrete linearly independent but nearly dependent pair:
column 0 is `(1, 0)`, every later column is `(1, 1/1000)`. -/
noncomputable def qrCexInput : ℕ → Vec ℝ 2 :=
  fun n => if n = 0 then (fun k => if k = 0 then 1 else 0)
    else (fun k => if k = 0 then 1 else 1/1000)

lemma qrCexInput_norm0 : l2_norm (qrCexInput 0) = 1 := by
  unfold l2_norm
  rw [show vdot (qrCexInput 0) (qrCexInput 0) = 1 by
    simp [vdot, qrCexInput, Fin.sum_univ_two]]
  exact Real.sqrt_one

lemma qr_cex_col0 :
    qrColumn (1/100) 0 (qrCexInput, Matrix.make ℝ 2) =
      some (Function.update qrCexInput 0 (vsmul (1/1) (qrCexInput 0)),
        Matrix.mk 2 [1, 0, 0, 0] rfl, false) := by
  unfold qrColumn
  dsimp only
  simp only [orthLoop, Option.some_bind]
  rw [qrCexInput_norm0]
  rw [if_neg (by norm_num : ¬((1:ℝ) < 1/100 * 1))]
  rw [Matrix.set_in_range _ _ (by norm_num [Matrix.make])
    (by norm_num [Matrix.make])]
  simp only [Option.map_some']
  congr 1

lemma qr_cex_col1 :
    qrColumn (1/100) 1
      (Function.update qrCexInput 0 (vsmul (1/1) (qrCexInput 0)),
        Matrix.mk 2 [1, 0, 0, 0] rfl) =
      some (Function.update (Function.update qrCexInput 0
          (vsmul (1/1) (qrCexInput 0))) 1 vzero,
        Matrix.mk 2 [1, 0, 0, 1] rfl, true) := by
  have hQ11 : (Function.update qrCexInput 0
      (vsmul (1/1) (qrCexInput 0))) 1 = qrCexInput 1 := by
    rw [Function.update_noteq (by norm_num : (1:ℕ) ≠ 0)]
  have hQ10 : (Function.update qrCexInput 0
      (vsmul (1/1) (qrCexInput 0))) 0 = vsmul (1/1) (qrCexInput 0) :=
    Function.update_same _ _ _
  have hr : vdot (vsmul (1/1) (qrCexInput 0)) (qrCexInput 1) = 1 := by
    rw [vdot_vsmul_left]
    rw [show vdot (qrCexInput 0) (qrCexInput 1) = 1 by
      simp [vdot, qrCexInput, Fin.sum_univ_two]]
    norm_num
  have hwnorm : l2_norm (vaxpy (qrCexInput 1) (-1)
      (vsmul (1/1) (qrCexInput 0))) = 1/1000 := by
    unfold l2_norm
    rw [show vdot (vaxpy (qrCexInput 1) (-1) (vsmul (1/1) (qrCexInput 0)))
        (vaxpy (qrCexInput 1) (-1) (vsmul (1/1) (qrCexInput 0))) =
        (1/1000:ℝ)^2 by
      simp [vdot, vaxpy, vsmul, qrCexInput, Fin.sum_univ_two]
      norm_num]
    exact Real.sqrt_sq (by norm_num)
  have hs1 : (1:ℝ) ≤ l2_norm (qrCexInput 1) := by
    unfold l2_norm
    rw [← Real.sqrt_one]
    apply Real.sqrt_le_sqrt
    rw [show vdot (qrCexInput 1) (qrCexInput 1) =
        1 + (1/1000:ℝ)^2 by
      simp [vdot, qrCexInput, Fin.sum_univ_two]
      norm_num]
    nlinarith [Real.sqrt_one]
  have hcond : (1/1000:ℝ) < 1/100 * l2_norm (qrCexInput 1) := by
    nlinarith
  unfold qrColumn
  dsimp only
  simp only [orthLoop, Option.some_bind]
  unfold orthStep
  dsimp only
  rw [hQ11, hQ10, hr]
  rw [Matrix.set_in_range _ _ (by norm_num) (by norm_num)]
  simp only [Option.some_bind, Option.map_some']
  rw [Function.update_same, hwnorm]
  rw [if_pos hcond]
  simp only [zeroColLoop, Option.some_bind]
  rw [Matrix.set_in_range _ _ (by norm_num) (by norm_num)]
  simp only [Option.some_bind]
  rw [Matrix.set_in_range _ _ (by norm_num) (by norm_num)]
  simp only [Option.map_some']
  rw [Function.update_idem]
  congr 1

lemma qr_cex_run :
    qrLoop (1/100) 2 (qrCexInput, Matrix.make ℝ 2) =
      some (Function.update (Function.update qrCexInput 0
          (vsmul (1/1) (qrCexInput 0))) 1 vzero,
        Matrix.mk 2 [1, 0, 0, 1] rfl, [false, true]) := by
  simp only [qrLoop, Option.some_bind]
  rw [qr_cex_col0]
  simp only [Option.some_bind, Option.map_some']
  rw [qr_cex_col1]
  simp only [Option.map_some']
  rfl

/-- C5 counterexample: the pair `(1,0)`, `(1,1/1000)` is linearly
independent, yet with the default `eps = 1e-2` the orthogonalized
residual of column 1 has norm `1/1000 < 1e-2·‖v_1‖`, so the drop branch
fires and the output `Q` is *not* orthonormal: `⟨Q[1], Q[1]⟩ = 0 ≠ 1` —
the claim fails for linearly independent inputs as stated. -/
theorem qr_linear_independent_deflated :
    LinearIndependent ℝ (fun x : Fin 2 => qrCexInput x.val) ∧
    (compute_QR_decomposition 2 qrCexInput (Matrix.make ℝ 2)
      (1/100)).map (fun QR => vdot (QR.1 1) (QR.1 1)) = some 0 ∧
    (0:ℝ) ≠ 1 := by
  refine ⟨?_, ?_, by norm_num⟩
  · rw [linearIndependent_fin2]
    constructor
    · intro hcon
      have hc := congrFun hcon 0
      norm_num [qrCexInput] at hc
    · intro a hcon
      have h0 := congrFun hcon 0
      have h1 := congrFun hcon 1
      simp only [Pi.smul_apply, smul_eq_mul, qrCexInput] at h0 h1
      norm_num at h0 h1
      rw [h1] at h0
      norm_num at h0
  · unfold compute_QR_decomposition
    rw [qr_cex_run]
    simp only [Option.map_some']
    congr 1
    rw [Function.update_same]
    simp [vdot, vzero]

end FSI
end ExaDG
